import Mathlib

/-!
Verification of the annotation-tool core (Python package `annotation_ls_py`)
against its natural-language specification.

The Python sources are shallowly embedded:
* documents become `List (List Char)` (the `doc.lines` view used everywhere);
* the span scanner `find_annotation_ranges_raw` / `find_annotation_ranges` /
  `get_annotation_at_position` / `get_annotation_id_before_position`
  (utils.py) becomes `find_annot_ranges_raw` / `find_annot_ranges` /
  `get_annot_at_position` / `get_annot_id_before_position`;
* the per-file slice of the SQLite store (db_manager.py) becomes `Store`,
  with `increase_annot_ids` embedding `DatabaseManager.increase_annotation_ids`,
  `create_annot_cmd` embedding the storage effect of the `createAnnotation`
  command (server.py) and `delete_annot_cmd` the `deleteAnnotation` command;
* the note file names generated in `DatabaseManager.create_annotation`
  become `note_file_name` over an explicit `PyDateTime`;
* the global configuration module (config.py) becomes the state-passing
  functions `configProperty` / `managerInit`;
* the workspace forest (workspace_manager.py) becomes `WTree` with
  `get_workspace` embedding `WorkspaceManager.get_workspace`.

Python's `sorted` (used on lists of distinct 4-tuples) is embedded by the
structurally recursive stable insertion sort `sortBy`, and `list.index` by
`pyIndex`.  Identifiers shorten `annotation` to `annot`.
-/

/-! ### Generic list helpers -/

def insertSorted {α : Type} (le : α → α → Bool) (a : α) : List α → List α
| [] => [a]
| b :: bs => if le a b then a :: b :: bs else b :: insertSorted le a bs

/-- Stable insertion sort; embeds Python `sorted` for the total orders used here. -/
def sortBy {α : Type} (le : α → α → Bool) : List α → List α
| [] => []
| a :: as => insertSorted le a (sortBy le as)

theorem insertSorted_perm {α : Type} (le : α → α → Bool) (a : α) (l : List α) :
    (insertSorted le a l).Perm (a :: l) := by
  induction l with
  | nil => simp [insertSorted]
  | cons b bs ih =>
    simp only [insertSorted]
    split
    · exact List.Perm.refl _
    · exact (List.Perm.cons b ih).trans (List.Perm.swap a b bs)

theorem sortBy_perm {α : Type} (le : α → α → Bool) (l : List α) :
    (sortBy le l).Perm l := by
  induction l with
  | nil => exact List.Perm.refl _
  | cons a as ih =>
    simp only [sortBy]
    exact (insertSorted_perm le a (sortBy le as)).trans (List.Perm.cons a ih)

theorem insertSorted_pairwise {α : Type} (le : α → α → Bool)
    (htot : ∀ a b, le a b = true ∨ le b a = true)
    (htr : ∀ a b c, le a b = true → le b c = true → le a c = true)
    (a : α) (l : List α) (h : l.Pairwise (fun x y => le x y = true)) :
    (insertSorted le a l).Pairwise (fun x y => le x y = true) := by
  induction l with
  | nil => simp [insertSorted]
  | cons b bs ih =>
    simp only [insertSorted]
    rcases List.pairwise_cons.mp h with ⟨hb, hbs⟩
    split
    · rename_i hab
      refine List.pairwise_cons.mpr ⟨?_, h⟩
      intro x hx
      rcases hx with _ | hx
      · exact hab
      · exact htr a b _ hab (hb _ (by assumption))
    · rename_i hab
      have hba : le b a = true := by
        rcases htot a b with h1 | h1
        · exact absurd h1 hab
        · exact h1
      refine List.pairwise_cons.mpr ⟨?_, ih hbs⟩
      intro x hx
      have hx2 := (insertSorted_perm le a bs).mem_iff.mp hx
      rcases List.mem_cons.mp hx2 with h2 | h2
      · subst h2; exact hba
      · exact hb _ h2

theorem sortBy_pairwise {α : Type} (le : α → α → Bool)
    (htot : ∀ a b, le a b = true ∨ le b a = true)
    (htr : ∀ a b c, le a b = true → le b c = true → le a c = true)
    (l : List α) : (sortBy le l).Pairwise (fun x y => le x y = true) := by
  induction l with
  | nil => simp [sortBy]
  | cons a as ih => exact insertSorted_pairwise le htot htr a _ ih

/-- Embeds Python `list.index`: index of the first occurrence. -/
def pyIndex {α : Type} [DecidableEq α] : List α → α → Nat
| [], _ => 0
| b :: bs, a => if b = a then 0 else pyIndex bs a + 1

theorem pyIndex_lt {α : Type} [DecidableEq α] (l : List α) (a : α) (h : a ∈ l) :
    pyIndex l a < l.length := by
  induction l with
  | nil => cases h
  | cons b bs ih =>
    simp only [pyIndex]
    split
    · simp
    · rename_i hne
      have : a ∈ bs := by
        rcases List.mem_cons.mp h with h1 | h1
        · exact absurd h1.symm hne
        · exact h1
      simpa [Nat.succ_lt_succ_iff] using ih this

theorem getElem?_pyIndex {α : Type} [DecidableEq α] (l : List α) (a : α) (h : a ∈ l) :
    l[pyIndex l a]? = some a := by
  induction l with
  | nil => cases h
  | cons b bs ih =>
    simp only [pyIndex]
    split
    · rename_i he; subst he; simp
    · rename_i hne
      have : a ∈ bs := by
        rcases List.mem_cons.mp h with h1 | h1
        · exact absurd h1.symm hne
        · exact h1
      simpa using ih this

theorem find?_filter_of {α : Type} (l : List α) (p keep : α → Bool)
    (h : ∀ x ∈ l, p x = true → keep x = true) :
    (l.filter keep).find? p = l.find? p := by
  induction l with
  | nil => rfl
  | cons a as ih =>
    have ih2 := ih (fun x hx => h x (List.mem_cons_of_mem a hx))
    by_cases hk : keep a = true
    · by_cases hp : p a = true
      · simp [List.filter_cons, hk, List.find?_cons, hp]
      · simp [List.filter_cons, hk, List.find?_cons, hp, ih2]
    · have hp : p a = false := by
        by_contra hc
        exact hk (h a (List.mem_cons_self a as) (by simpa using hc))
      simp [List.filter_cons, hk, List.find?_cons, hp, ih2]

/-! ### Span Scanner (utils.py)

Configuration: `config.py` keeps a `left_bracket` / `right_bracket` pair
(defaults `｢` and `｣`).  The scanner reads them from the global `config`;
here the configuration is passed explicitly. -/

structure AnnotConfig where
  left_bracket : Char
  right_bracket : Char
deriving DecidableEq, Repr

def defaultAnnotConfig : AnnotConfig := ⟨'｢', '｣'⟩

/-- A span `(start_line, start_char, end_line, end_char)`, the 4-tuple
produced by `find_annotation_ranges_raw`. -/
structure Span where
  start_line : Nat
  start_char : Nat
  end_line : Nat
  end_char : Nat
deriving DecidableEq, Repr

/-- Python tuple `<=` on the 4-tuples (lexicographic). -/
def spanLe (a b : Span) : Bool :=
  if a.start_line ≠ b.start_line then decide (a.start_line < b.start_line)
  else if a.start_char ≠ b.start_char then decide (a.start_char < b.start_char)
  else if a.end_line ≠ b.end_line then decide (a.end_line < b.end_line)
  else decide (a.end_char ≤ b.end_char)

theorem spanLe_total : ∀ a b, spanLe a b = true ∨ spanLe b a = true := by
  intro a b
  simp only [spanLe]
  split_ifs <;> simp_all <;> omega

theorem spanLe_trans : ∀ a b c, spanLe a b = true → spanLe b c = true → spanLe a c = true := by
  intro a b c
  simp only [spanLe]
  split_ifs <;> simp_all <;> omega

/-- Enumerates a document as the scanner's nested loops do: every character
with its `(line, column)` position, in reading order. -/
def enumLines (lines : List (List Char)) : List ((Nat × Nat) × Char) :=
  (lines.enum.map (fun p => p.2.enum.map (fun q => ((p.1, q.1), q.2)))).join

/-- The scanning loop of `find_annotation_ranges_raw`: push open-delimiter
positions, pop on a close delimiter (failing on an empty stack), and fail at
the end if the stack is non-empty. -/
def scanList (cfg : AnnotConfig) :
    List ((Nat × Nat) × Char) → List (Nat × Nat) → List Span → Option (List Span)
| [], stack, anns => if stack.isEmpty then some anns else none
| (pos, c) :: rest, stack, anns =>
  let stack1 := if c = cfg.left_bracket then pos :: stack else stack
  if c = cfg.right_bracket then
    match stack1 with
    | [] => none
    | lp :: stk => scanList cfg rest stk (anns ++ [⟨lp.1, lp.2, pos.1, pos.2⟩])
  else scanList cfg rest stack1 anns

/-- Embeds `find_annotation_ranges_raw`: spans in closing order, or `none`
when the delimiters do not balance. -/
def find_annot_ranges_raw (cfg : AnnotConfig) (lines : List (List Char)) :
    Option (List Span) :=
  scanList cfg (enumLines lines) [] []

def sortSpans (l : List Span) : List Span := sortBy spanLe l

/-- Embeds `find_annotation_ranges`: the raw spans sorted by Python tuple
order (position order). -/
def find_annot_ranges (cfg : AnnotConfig) (lines : List (List Char)) :
    Option (List Span) :=
  (find_annot_ranges_raw cfg lines).map sortSpans

/-- The containment test of `get_annotation_at_position`. -/
def spanContains (pos : Nat × Nat) (sp : Span) : Bool :=
  decide (sp.start_line ≤ pos.1) && decide (pos.1 ≤ sp.end_line)
  && (decide (sp.start_line ≠ pos.1) || decide (sp.start_char ≤ pos.2))
  && (decide (sp.end_line ≠ pos.1) || decide (pos.2 ≤ sp.end_char))

/-- Embeds `get_annotation_at_position`: the 1-based sorted-order index of
the first raw-order span containing the position. -/
def get_annot_at_position (cfg : AnnotConfig) (lines : List (List Char))
    (pos : Nat × Nat) : Option Nat :=
  match find_annot_ranges_raw cfg lines with
  | none => none
  | some annotR =>
    let annotL := sortSpans annotR
    match annotR.find? (spanContains pos) with
    | none => none
    | some sp => some (pyIndex annotL sp + 1)

/-- Python comparison of a 4-tuple span against the 2-tuple
`(pos_line, pos_char)` key used by `bisect_left` (a longer tuple with an
equal prefix compares greater). -/
def pyLtSpanKey (sp : Span) (key : Nat × Nat) : Bool :=
  if sp.start_line ≠ key.1 then decide (sp.start_line < key.1)
  else if sp.start_char ≠ key.2 then decide (sp.start_char < key.2)
  else false

/-- Embeds `bisect.bisect_left` on the sorted span list: the insertion
point, i.e. the number of elements strictly below the key. -/
def bisect_left (l : List Span) (key : Nat × Nat) : Nat :=
  l.countP (fun sp => pyLtSpanKey sp key)

/-- Embeds `get_annotation_id_before_position`. -/
def get_annot_id_before_position (cfg : AnnotConfig) (lines : List (List Char))
    (pos : Nat × Nat) : Option Nat :=
  (find_annot_ranges cfg lines).map (fun anns => bisect_left anns pos)

/-! ### C3: unbalanced delimiters make the scan fail -/

/-- Number of occurrences of a character. -/
def countOf (c : Char) (l : List Char) : Nat := l.countP (fun x => decide (x = c))

theorem countOf_cons (c x : Char) (l : List Char) :
    countOf c (x :: l) = countOf c l + (if x = c then 1 else 0) := by
  simp only [countOf, List.countP_cons]
  by_cases h : x = c <;> simp [h]

theorem enumLines_map_snd (lines : List (List Char)) :
    (enumLines lines).map (fun p => p.2) = lines.join := by
  unfold enumLines
  rw [List.map_join, List.map_map]
  have h1 : lines.enum.map
        ((List.map (fun p : (Nat × Nat) × Char => p.2))
          ∘ (fun p : Nat × List Char => p.2.enum.map (fun q => ((p.1, q.1), q.2))))
      = lines.enum.map (fun p => p.2) := by
    apply List.map_congr_left
    intro p _
    show (p.2.enum.map (fun q => ((p.1, q.1), q.2))).map (fun x => x.2) = p.2
    rw [List.map_map]
    exact List.enum_map_snd p.2
  rw [h1, List.enum_map_snd]

theorem scanList_isSome (cfg : AnnotConfig) (h : cfg.left_bracket ≠ cfg.right_bracket) :
    ∀ (l : List ((Nat × Nat) × Char)) (stack : List (Nat × Nat)) (anns : List Span),
      (scanList cfg l stack anns).isSome = true →
      (∀ n, countOf cfg.right_bracket ((l.map (fun p => p.2)).take n)
            ≤ stack.length + countOf cfg.left_bracket ((l.map (fun p => p.2)).take n))
      ∧ stack.length + countOf cfg.left_bracket (l.map (fun p => p.2))
          = countOf cfg.right_bracket (l.map (fun p => p.2)) := by
  intro l
  induction l with
  | nil =>
    intro stack anns hsome
    have hstack : stack = [] := by
      by_contra hne
      simp [scanList, List.isEmpty_iff, hne] at hsome
    subst hstack
    constructor
    · intro n; simp [countOf]
    · simp [countOf]
  | cons pc rest ih =>
    intro stack anns hsome
    obtain ⟨pos, c⟩ := pc
    by_cases hcr : c = cfg.right_bracket
    · have hcl : ¬ c = cfg.left_bracket := fun hc => h (hc ▸ hcr ▸ rfl)
      simp only [scanList, if_neg hcl, if_pos hcr] at hsome
      cases stack with
      | nil => simp at hsome
      | cons lp stk =>
        obtain ⟨h1, h2⟩ := ih stk (anns ++ [⟨lp.1, lp.2, pos.1, pos.2⟩]) hsome
        constructor
        · intro n
          cases n with
          | zero => simp [countOf]
          | succ m =>
            simp only [List.map_cons, List.take_succ_cons, countOf_cons,
              if_pos hcr, if_neg hcl, List.length_cons]
            have := h1 m
            omega
        · simp only [List.map_cons, countOf_cons, if_pos hcr, if_neg hcl, List.length_cons]
          omega
    · by_cases hcl : c = cfg.left_bracket
      · simp only [scanList, if_pos hcl, if_neg hcr] at hsome
        obtain ⟨h1, h2⟩ := ih (pos :: stack) anns hsome
        simp only [List.length_cons] at h1 h2
        constructor
        · intro n
          cases n with
          | zero => simp [countOf]
          | succ m =>
            simp only [List.map_cons, List.take_succ_cons, countOf_cons,
              if_pos hcl, if_neg hcr]
            have := h1 m
            omega
        · simp only [List.map_cons, countOf_cons, if_pos hcl, if_neg hcr]
          omega
      · simp only [scanList, if_neg hcl, if_neg hcr] at hsome
        obtain ⟨h1, h2⟩ := ih stack anns hsome
        constructor
        · intro n
          cases n with
          | zero => simp [countOf]
          | succ m =>
            simp only [List.map_cons, List.take_succ_cons, countOf_cons,
              if_neg hcl, if_neg hcr]
            have := h1 m
            omega
        · simp only [List.map_cons, countOf_cons, if_neg hcl, if_neg hcr]
          omega

/-- C3: a text whose configured delimiters are unbalanced — some text
position has seen more close than open delimiters, or the totals differ —
makes `find_annotation_ranges_raw` and `find_annotation_ranges` both return
the failure sentinel `none`, never a partial list. -/
theorem C3_unbalanced_fails (cfg : AnnotConfig) (lines : List (List Char))
    (h : cfg.left_bracket ≠ cfg.right_bracket)
    (hunb : (∃ n, countOf cfg.left_bracket (lines.join.take n)
                < countOf cfg.right_bracket (lines.join.take n))
          ∨ countOf cfg.left_bracket lines.join ≠ countOf cfg.right_bracket lines.join) :
    find_annot_ranges_raw cfg lines = none ∧ find_annot_ranges cfg lines = none := by
  have hraw : find_annot_ranges_raw cfg lines = none := by
    cases hres : find_annot_ranges_raw cfg lines with
    | none => rfl
    | some anns =>
      exfalso
      have hsome : (scanList cfg (enumLines lines) [] []).isSome = true := by
        simp [find_annot_ranges_raw] at hres
        simp [hres]
      have := scanList_isSome cfg h (enumLines lines) [] [] hsome
      rw [enumLines_map_snd] at this
      obtain ⟨h1, h2⟩ := this
      simp only [List.length_nil, Nat.zero_add] at h1 h2
      rcases hunb with ⟨n, hn⟩ | hne
      · exact absurd (h1 n) (by omega)
      · exact hne (by omega)
  refine ⟨hraw, ?_⟩
  simp [find_annot_ranges, hraw]

/-- Witness for C3 at a concrete unbalanced document. -/
theorem C3_unbalanced_fails_witness :
    ((defaultAnnotConfig.left_bracket ≠ defaultAnnotConfig.right_bracket)
      ∧ countOf defaultAnnotConfig.left_bracket [['a', '｢', 'b']].join
          ≠ countOf defaultAnnotConfig.right_bracket [['a', '｢', 'b']].join)
    ∧ find_annot_ranges_raw defaultAnnotConfig [['a', '｢', 'b']] = none
    ∧ find_annot_ranges defaultAnnotConfig [['a', '｢', 'b']] = none :=
  ⟨⟨by decide, by decide⟩,
   C3_unbalanced_fails defaultAnnotConfig [['a', '｢', 'b']] (by decide) (Or.inr (by decide))⟩

/-! ### C5: span lookup at a position -/

/-- C5: with balanced raw spans `R`, `get_annotation_at_position` returns
`none` when no raw span contains the position, and otherwise the 1-based
rank, in the position-sorted list, of the first containing span in raw
closing order (that rank is in `[1, |R|]` and indexes exactly that span);
the sorted list is ordered by Python tuple order on the spans. -/
theorem C5_span_at (cfg : AnnotConfig) (lines : List (List Char)) (pos : Nat × Nat)
    (R : List Span) (h : find_annot_ranges_raw cfg lines = some R) :
    ((∀ sp ∈ R, spanContains pos sp = false) →
        get_annot_at_position cfg lines pos = none)
    ∧ (∀ sp, R.find? (spanContains pos) = some sp →
        ∃ k, get_annot_at_position cfg lines pos = some k ∧ 1 ≤ k
          ∧ k ≤ (sortSpans R).length ∧ (sortSpans R)[k - 1]? = some sp)
    ∧ (sortSpans R).Pairwise (fun a b => spanLe a b = true) := by
  refine ⟨?_, ?_, ?_⟩
  · intro hall
    have hfind : R.find? (spanContains pos) = none :=
      List.find?_eq_none.mpr (fun x hx => by simp [hall x hx])
    simp [get_annot_at_position, h, hfind]
  · intro sp hfind
    have hmem : sp ∈ R := List.mem_of_find?_eq_some hfind
    have hmemL : sp ∈ sortSpans R := (sortBy_perm spanLe R).mem_iff.mpr hmem
    refine ⟨pyIndex (sortSpans R) sp + 1, ?_, ?_, ?_, ?_⟩
    · simp [get_annot_at_position, h, hfind, sortSpans]
    · omega
    · have := pyIndex_lt (sortSpans R) sp hmemL
      omega
    · simpa using getElem?_pyIndex (sortSpans R) sp hmemL
  · exact sortBy_pairwise spanLe spanLe_total spanLe_trans R

/-- Witness for C5 on the document `x｢y｣` at position `(0,2)`. -/
theorem C5_span_at_witness :
    find_annot_ranges_raw defaultAnnotConfig [['x', '｢', 'y', '｣']] = some [⟨0, 1, 0, 3⟩]
    ∧ (∃ k, get_annot_at_position defaultAnnotConfig [['x', '｢', 'y', '｣']] (0, 2) = some k
        ∧ k = 1) :=
  ⟨by decide, by
    obtain ⟨-, h2, -⟩ :=
      C5_span_at defaultAnnotConfig [['x', '｢', 'y', '｣']] (0, 2) [⟨0, 1, 0, 3⟩] (by decide)
    obtain ⟨k, hk, hk1, hlen, -⟩ := h2 ⟨0, 1, 0, 3⟩ (by decide)
    refine ⟨k, hk, ?_⟩
    have hL : (sortSpans [(⟨0, 1, 0, 3⟩ : Span)]).length = 1 := rfl
    have hk2 : k ≤ 1 := le_trans hlen (le_of_eq hL)
    omega⟩

/-! ### C9: insertion-point identity -/

/-- The specification predicate: the span starts strictly before the
position, with line-major, character-minor comparison. -/
def startBefore (sp : Span) (pos : Nat × Nat) : Prop :=
  sp.start_line < pos.1 ∨ (sp.start_line = pos.1 ∧ sp.start_char < pos.2)

instance (sp : Span) (pos : Nat × Nat) : Decidable (startBefore sp pos) := by
  unfold startBefore
  infer_instance

theorem pyLt_eq_startBefore (sp : Span) (pos : Nat × Nat) :
    pyLtSpanKey sp pos = decide (startBefore sp pos) := by
  simp only [pyLtSpanKey, startBefore]
  split_ifs <;> simp_all <;> omega

/-- C9: with position-ordered spans `L`, `get_annotation_id_before_position`
returns the number of spans whose start is strictly before the position, and
`0` at the very start of the text. -/
theorem C9_id_before (cfg : AnnotConfig) (lines : List (List Char)) (pos : Nat × Nat)
    (L : List Span) (h : find_annot_ranges cfg lines = some L) :
    get_annot_id_before_position cfg lines pos
        = some (L.countP (fun sp => decide (startBefore sp pos)))
    ∧ get_annot_id_before_position cfg lines (0, 0) = some 0 := by
  constructor
  · simp only [get_annot_id_before_position, h, Option.map_some']
    congr 1
    unfold bisect_left
    apply List.countP_congr
    intro sp _
    rw [pyLt_eq_startBefore]
  · simp only [get_annot_id_before_position, h, Option.map_some']
    congr 1
    unfold bisect_left
    apply List.countP_eq_zero.mpr
    intro sp _
    simp only [pyLtSpanKey]
    split_ifs <;> simp_all

/-- Witness for C9 on the document `x｢y｣`. -/
theorem C9_id_before_witness :
    find_annot_ranges defaultAnnotConfig [['x', '｢', 'y', '｣']] = some [⟨0, 1, 0, 3⟩]
    ∧ get_annot_id_before_position defaultAnnotConfig [['x', '｢', 'y', '｣']] (0, 2) = some 1
    ∧ get_annot_id_before_position defaultAnnotConfig [['x', '｢', 'y', '｣']] (0, 0) = some 0 := by
  have h := C9_id_before defaultAnnotConfig [['x', '｢', 'y', '｣']] (0, 2) [⟨0, 1, 0, 3⟩]
      (by decide)
  refine ⟨by decide, ?_, h.2⟩
  rw [h.1]
  decide

/-! ### C8: note-file names (db_manager.py, `create_annotation`)

`note_file = f"note_{now.strftime('%Y%m%d_%H%M%S')}.md"` — the name depends
only on the wall-clock time truncated to seconds. -/

/-- A Python `datetime.datetime` value (microsecond resolution). -/
structure PyDateTime where
  year : Nat
  month : Nat
  day : Nat
  hour : Nat
  minute : Nat
  second : Nat
  microsecond : Nat
deriving DecidableEq, Repr

def pad2 (n : Nat) : String := if n < 10 then "0" ++ toString n else toString n

def pad4 (n : Nat) : String :=
  if n < 10 then "000" ++ toString n
  else if n < 100 then "00" ++ toString n
  else if n < 1000 then "0" ++ toString n
  else toString n

/-- Embeds `now.strftime('%Y%m%d_%H%M%S')`: second resolution, the
microsecond field is dropped. -/
def strftimeYmdHMS (t : PyDateTime) : String :=
  pad4 t.year ++ pad2 t.month ++ pad2 t.day ++ "_"
    ++ pad2 t.hour ++ pad2 t.minute ++ pad2 t.second

/-- Embeds the note-file name generator of `DatabaseManager.create_annotation`. -/
def note_file_name (now : PyDateTime) : String :=
  "note_" ++ strftimeYmdHMS now ++ ".md"

theorem string_data_inj (s t : String) (h : s.data = t.data) : s = t := by
  cases s
  cases t
  cases h
  rfl

/-- C8 counterexample: two distinct creation instants in the same second
produce the same note-file name, so names generated by two calls are not
always distinct. -/
theorem C8_counterexample :
    (⟨2024, 1, 2, 3, 4, 5, 0⟩ : PyDateTime) ≠ (⟨2024, 1, 2, 3, 4, 5, 500000⟩ : PyDateTime)
    ∧ note_file_name ⟨2024, 1, 2, 3, 4, 5, 0⟩ = note_file_name ⟨2024, 1, 2, 3, 4, 5, 500000⟩ := by
  constructor
  · decide
  · rfl

/-- C8 (amended): the note-file names generated by two `createAnnotation`
calls are distinct exactly when the calls' second-resolution formatted
timestamps are distinct. -/
theorem C8_name_unique_iff (t1 t2 : PyDateTime) :
    note_file_name t1 = note_file_name t2 ↔ strftimeYmdHMS t1 = strftimeYmdHMS t2 := by
  constructor
  · intro h
    have hd : ("note_" ++ strftimeYmdHMS t1 ++ ".md").data
        = ("note_" ++ strftimeYmdHMS t2 ++ ".md").data := by
      rw [show ("note_" ++ strftimeYmdHMS t1 ++ ".md") = note_file_name t1 from rfl,
        show ("note_" ++ strftimeYmdHMS t2 ++ ".md") = note_file_name t2 from rfl, h]
    simp only [String.data_append] at hd
    have h1 := List.append_cancel_left (List.append_cancel_right hd)
    exact string_data_inj _ _ h1
  · intro h
    unfold note_file_name
    rw [h]

/-! ### Annotation Store (db_manager.py), one file's slice

`Store.fileExists` models whether the `files` table has a row for the file;
`records` models the `annotations` rows `(annotation_id, note_file)` for it;
`notes` models the note documents of the Note Store as pairs
`(file name, id metadata field)`. -/

structure Store where
  fileExists : Bool
  records : List (Int × String)
  notes : List (String × Int)
deriving DecidableEq, Repr

/-- Embeds `update_note_aid` (utils.py): rewrite the `id` metadata field of
the named note; no-op when the note does not exist. -/
def update_note_aid (notes : List (String × Int)) (nf : String) (aid : Int) :
    List (String × Int) :=
  notes.map (fun q => if q.1 = nf then (q.1, aid) else q)

/-- `ORDER BY annotation_id DESC` comparison. -/
def rowLeDesc (p q : Int × String) : Bool := decide (q.1 ≤ p.1)

/-- The snapshot `increase_annotation_ids` iterates over: rows with
`annotation_id >= from_id`, descending, reversed to ascending when the
increment is negative. -/
def renumberOrder (records : List (Int × String)) (fromId inc : Int) :
    List (Int × String) :=
  let sel := sortBy rowLeDesc (records.filter (fun r => decide (fromId ≤ r.1)))
  if inc < 0 then sel.reverse else sel

/-- One `UPDATE annotations SET annotation_id = annotation_id + inc WHERE
annotation_id = p.1` applied to a row. -/
def updateRowAid (inc : Int) (p : Int × String) (r : Int × String) : Int × String :=
  if r.1 = p.1 then (r.1 + inc, r.2) else r

/-- One loop iteration of `increase_annotation_ids`: the SQL update plus
`update_note_aid` on that row's note with the new id. -/
def applyShift (inc : Int) (st : Store) (p : Int × String) : Store :=
  ⟨st.fileExists, st.records.map (updateRowAid inc p),
    update_note_aid st.notes p.2 (p.1 + inc)⟩

/-- One checked loop iteration: the `annotations` table is declared with
`UNIQUE (file_id, annotation_id)`, so the `UPDATE` raises
`sqlite3.IntegrityError` when a row currently holds the source id and
another row already holds the target id `p.1 + inc`; otherwise the update
and the note rewrite go through. -/
def shiftStep (inc : Int) (st : Store) (p : Int × String) : Option Store :=
  if st.records.any (fun r => decide (r.1 = p.1))
      && st.records.any (fun r => decide (r.1 = p.1 + inc)) then none
  else some (applyShift inc st p)

/-- The update loop of `increase_annotation_ids` over the snapshot, stopping
at the first uniqueness violation. -/
def shiftAll (inc : Int) : List (Int × String) → Store → Option Store
| [], st => some st
| p :: ps, st =>
  match shiftStep inc st p with
  | none => none
  | some st1 => shiftAll inc ps st1

/-- Embeds `DatabaseManager.increase_annotation_ids`: returns `false` and
leaves the store unchanged when the file has no row; otherwise runs the
update loop, returning `false` when an `UPDATE` hits the uniqueness
constraint (the raised error is caught, nothing is committed — with the
table's uniqueness invariant and the increments ±1 used by the program, a
violation can only strike the first processed row, before any note
rewrite, so the store is unchanged), and `true` with the shifted store on
success. -/
def increase_annot_ids (st : Store) (fromId : Int) (inc : Int) : Bool × Store :=
  if st.fileExists then
    match shiftAll inc (renumberOrder st.records fromId inc) st with
    | none => (false, st)
    | some st1 => (true, st1)
  else (false, st)

/-- Embeds `NoteManager.create_annotation_note`: writes the note document
(overwriting an existing file of the same name), with `id` metadata `aid`. -/
def write_note (notes : List (String × Int)) (nf : String) (aid : Int) :
    List (String × Int) :=
  if notes.any (fun q => decide (q.1 = nf)) then
    notes.map (fun q => if q.1 = nf then (q.1, aid) else q)
  else notes ++ [(nf, aid)]

/-- Embeds the storage effect of the `createAnnotation` command (server.py):
renumber up from the new id (result ignored), insert the record (failing on
a `(file_id, annotation_id)` uniqueness violation), then write the note. -/
def create_annot_cmd (st : Store) (newId : Int) (nf : String) : Option Store :=
  if ((increase_annot_ids st newId 1).2).records.any (fun r => decide (r.1 = newId)) then
    none
  else
    some ⟨true, ((increase_annot_ids st newId 1).2).records ++ [(newId, nf)],
      write_note ((increase_annot_ids st newId 1).2).notes nf newId⟩

/-- The `DELETE FROM annotations` step of the `deleteAnnotation` command. -/
def deleteRow (st : Store) (aid : Int) : Store :=
  ⟨st.fileExists, st.records.filter (fun x => !decide (x.1 = aid)), st.notes⟩

/-- Embeds the storage effect of the `deleteAnnotation` command (server.py):
look up the note file of the id at the position, delete the record, renumber
down from that id, then delete the note file. -/
def delete_annot_cmd (st : Store) (aid : Int) : Option Store :=
  if st.fileExists then
    match st.records.find? (fun r => decide (r.1 = aid)) with
    | none => none
    | some r =>
      some ⟨((increase_annot_ids (deleteRow st aid) aid (-1)).2).fileExists,
            ((increase_annot_ids (deleteRow st aid) aid (-1)).2).records,
            ((increase_annot_ids (deleteRow st aid) aid (-1)).2).notes.filter
              (fun q => !decide (q.1 = r.2))⟩
  else none

/-! #### Pointwise characterisation of the renumbering fold -/

def rowFold (inc : Int) (P : List (Int × String)) (r : Int × String) : Int × String :=
  P.foldl (fun r p => updateRowAid inc p r) r

def noteFold (inc : Int) (P : List (Int × String)) (q : String × Int) : String × Int :=
  P.foldl (fun q p => if q.1 = p.2 then (q.1, p.1 + inc) else q) q

theorem foldl_applyShift_records (inc : Int) (P : List (Int × String)) (st : Store) :
    (P.foldl (applyShift inc) st).records = st.records.map (rowFold inc P) := by
  induction P generalizing st with
  | nil =>
    show st.records = st.records.map (fun r => r)
    exact (List.map_id' st.records).symm
  | cons p ps ih =>
    simp only [List.foldl_cons]
    rw [ih]
    show ((applyShift inc st p).records).map (rowFold inc ps) = _
    simp only [applyShift, List.map_map]
    rfl

theorem foldl_applyShift_notes (inc : Int) (P : List (Int × String)) (st : Store) :
    (P.foldl (applyShift inc) st).notes = st.notes.map (noteFold inc P) := by
  induction P generalizing st with
  | nil =>
    show st.notes = st.notes.map (fun q => q)
    exact (List.map_id' st.notes).symm
  | cons p ps ih =>
    simp only [List.foldl_cons]
    rw [ih]
    show ((applyShift inc st p).notes).map (noteFold inc ps) = _
    simp only [applyShift, update_note_aid, List.map_map]
    rfl

theorem foldl_applyShift_fileExists (inc : Int) (P : List (Int × String)) (st : Store) :
    (P.foldl (applyShift inc) st).fileExists = st.fileExists := by
  induction P generalizing st with
  | nil => rfl
  | cons p ps ih =>
    simp only [List.foldl_cons]
    rw [ih]
    rfl

theorem rowFold_not_mem (inc : Int) (P : List (Int × String)) (r : Int × String)
    (h : ∀ p ∈ P, p.1 ≠ r.1) : rowFold inc P r = r := by
  induction P with
  | nil => rfl
  | cons p ps ih =>
    simp only [rowFold, List.foldl_cons]
    have hpr : updateRowAid inc p r = r := by
      unfold updateRowAid
      rw [if_neg]
      intro hc
      exact h p (List.mem_cons_self p ps) hc.symm
    rw [hpr]
    exact ih (fun q hq => h q (List.mem_cons_of_mem p hq))

theorem rowFold_mem (inc : Int) (P : List (Int × String)) (r : Int × String)
    (hpw : P.Pairwise (fun p q => q.1 ≠ p.1 ∧ q.1 ≠ p.1 + inc))
    (hmem : r.1 ∈ P.map (fun p => p.1)) :
    rowFold inc P r = (r.1 + inc, r.2) := by
  induction P with
  | nil => cases hmem
  | cons p ps ih =>
    rcases List.pairwise_cons.mp hpw with ⟨hhead, hps⟩
    by_cases hr : r.1 = p.1
    · simp only [rowFold, List.foldl_cons]
      have hstep : updateRowAid inc p r = (r.1 + inc, r.2) := by
        unfold updateRowAid
        rw [if_pos hr]
      rw [hstep]
      have : ∀ q ∈ ps, q.1 ≠ (r.1 + inc, r.2).1 := by
        intro q hq
        have := (hhead q hq).2
        simpa [hr] using this
      exact rowFold_not_mem inc ps _ this
    · simp only [rowFold, List.foldl_cons]
      have hstep : updateRowAid inc p r = r := by
        unfold updateRowAid
        rw [if_neg hr]
      rw [hstep]
      apply ih hps
      rcases List.mem_map.mp hmem with ⟨q, hq, hq1⟩
      rcases List.mem_cons.mp hq with h1 | h1
      · exact absurd (by rw [← hq1, h1]) hr
      · exact List.mem_map.mpr ⟨q, h1, hq1⟩

theorem noteFold_fst (inc : Int) (P : List (Int × String)) (q : String × Int) :
    (noteFold inc P q).1 = q.1 := by
  induction P generalizing q with
  | nil => rfl
  | cons p ps ih =>
    simp only [noteFold, List.foldl_cons]
    by_cases hq : q.1 = p.2
    · rw [if_pos hq]
      exact ih ⟨q.1, p.1 + inc⟩
    · rw [if_neg hq]
      exact ih q

theorem noteFold_not_mem (inc : Int) (P : List (Int × String)) (q : String × Int)
    (h : ∀ p ∈ P, p.2 ≠ q.1) : noteFold inc P q = q := by
  induction P with
  | nil => rfl
  | cons p ps ih =>
    simp only [noteFold, List.foldl_cons]
    rw [if_neg (fun hc => h p (List.mem_cons_self p ps) hc.symm)]
    exact ih (fun x hx => h x (List.mem_cons_of_mem p hx))

theorem noteFold_mem (inc : Int) (P : List (Int × String)) (q : String × Int)
    (p : Int × String) (hp : p ∈ P) (hq : q.1 = p.2)
    (hpw : P.Pairwise (fun a b => a.2 ≠ b.2)) :
    noteFold inc P q = (q.1, p.1 + inc) := by
  induction P generalizing q with
  | nil => cases hp
  | cons a ps ih =>
    rcases List.pairwise_cons.mp hpw with ⟨hhead, hps⟩
    rcases List.mem_cons.mp hp with h1 | h1
    · subst h1
      simp only [noteFold, List.foldl_cons]
      rw [if_pos hq]
      have : ∀ b ∈ ps, b.2 ≠ (q.1, p.1 + inc).1 := by
        intro b hb
        have := hhead b hb
        simp only
        rw [hq]
        exact fun hc => this hc.symm
      exact noteFold_not_mem inc ps _ this
    · simp only [noteFold, List.foldl_cons]
      have hne : ¬ q.1 = a.2 := by
        rw [hq]
        intro hc
        exact (hhead p h1) hc.symm
      rw [if_neg hne]
      exact ih q h1 hq hps

/-! #### Properties of the renumbering snapshot order -/

theorem renumberOrder_perm (records : List (Int × String)) (fromId inc : Int) :
    (renumberOrder records fromId inc).Perm
      (records.filter (fun r => decide (fromId ≤ r.1))) := by
  unfold renumberOrder
  split
  · exact (List.reverse_perm _).trans (sortBy_perm _ _)
  · exact sortBy_perm _ _

theorem rowLeDesc_total : ∀ p q, rowLeDesc p q = true ∨ rowLeDesc q p = true := by
  intro p q
  unfold rowLeDesc
  rcases le_total q.1 p.1 with h | h
  · exact Or.inl (decide_eq_true h)
  · exact Or.inr (decide_eq_true h)

theorem rowLeDesc_trans :
    ∀ a b c, rowLeDesc a b = true → rowLeDesc b c = true → rowLeDesc a c = true := by
  intro a b c h1 h2
  simp only [rowLeDesc, decide_eq_true_eq] at *
  omega

theorem selSorted_pairwise (records : List (Int × String)) (fromId : Int)
    (hnd : (records.map (fun r => r.1)).Nodup) :
    (sortBy rowLeDesc (records.filter (fun r => decide (fromId ≤ r.1)))).Pairwise
      (fun p q => q.1 < p.1) := by
  set sel := sortBy rowLeDesc (records.filter (fun r => decide (fromId ≤ r.1))) with hsel
  have hle : sel.Pairwise (fun p q => rowLeDesc p q = true) :=
    sortBy_pairwise rowLeDesc rowLeDesc_total rowLeDesc_trans _
  have hnodup : (sel.map (fun r => r.1)).Nodup := by
    have hperm := (sortBy_perm rowLeDesc
      (records.filter (fun r => decide (fromId ≤ r.1)))).map (fun r => r.1)
    have hsub : List.Sublist (records.filter (fun r => decide (fromId ≤ r.1))) records :=
      List.filter_sublist records
    exact hperm.nodup_iff.mpr ((hsub.map (fun r => r.1)).nodup hnd)
  have hne : sel.Pairwise (fun p q => p.1 ≠ q.1) := by
    rw [List.Nodup, List.pairwise_map] at hnodup
    exact hnodup
  refine (hle.and hne).imp ?_
  intro p q hpq
  have h1 : q.1 ≤ p.1 := by simpa [rowLeDesc] using hpq.1
  have h2 : p.1 ≠ q.1 := hpq.2
  omega

theorem renumberOrder_desc (records : List (Int × String)) (fromId : Int)
    (hnd : (records.map (fun r => r.1)).Nodup) :
    (renumberOrder records fromId 1).Pairwise (fun p q => q.1 < p.1) := by
  unfold renumberOrder
  rw [if_neg (by norm_num : ¬ ((1 : Int) < 0))]
  exact selSorted_pairwise records fromId hnd

theorem renumberOrder_asc (records : List (Int × String)) (fromId : Int)
    (hnd : (records.map (fun r => r.1)).Nodup) :
    (renumberOrder records fromId (-1)).Pairwise (fun p q => p.1 < q.1) := by
  unfold renumberOrder
  rw [if_pos (by norm_num : ((-1 : Int) < 0))]
  rw [List.pairwise_reverse]
  exact selSorted_pairwise records fromId hnd

/-! #### The end-to-end effect of `increase_annotation_ids` on the rows -/

theorem renumberOrder_cond (records : List (Int × String)) (k inc : Int)
    (hnd : (records.map (fun r => r.1)).Nodup) (hinc : inc = 1 ∨ inc = -1) :
    (renumberOrder records k inc).Pairwise (fun p q => q.1 ≠ p.1 ∧ q.1 ≠ p.1 + inc) := by
  rcases hinc with h1 | h1
  · subst h1
    refine (renumberOrder_desc records k hnd).imp ?_
    intro p q hpq
    exact ⟨by omega, by omega⟩
  · subst h1
    refine (renumberOrder_asc records k hnd).imp ?_
    intro p q hpq
    exact ⟨by omega, by omega⟩

theorem shiftAll_fileExists (inc : Int) : ∀ (P : List (Int × String)) (s s1 : Store),
    shiftAll inc P s = some s1 → s1.fileExists = s.fileExists := by
  intro P
  induction P with
  | nil =>
    intro s s1 h
    have h2 := Option.some.inj h
    rw [← h2]
  | cons p ps ih =>
    intro s s1 h
    simp only [shiftAll] at h
    cases hstep : shiftStep inc s p with
    | none =>
      rw [hstep] at h
      simp at h
    | some st1 =>
      rw [hstep] at h
      have h2 := ih st1 s1 h
      have h3 : st1.fileExists = s.fileExists := by
        unfold shiftStep at hstep
        split at hstep
        · simp at hstep
        · have := Option.some.inj hstep
          rw [← this]
          rfl
      rw [h2, h3]

/-- When no scheduled update collides with a live row, the checked loop
succeeds and computes exactly the unchecked fold. -/
theorem shiftAll_ok (inc : Int) (hne : inc ≠ 0) :
    ∀ (P : List (Int × String)) (s : Store),
    P.Pairwise (fun p q => q.1 ≠ p.1 ∧ q.1 ≠ p.1 + inc) →
    (∀ p ∈ P, ∀ r ∈ s.records, r.1 = p.1 + inc → r.1 ∈ P.map (fun x => x.1)) →
    shiftAll inc P s = some (P.foldl (applyShift inc) s) := by
  intro P
  induction P with
  | nil =>
    intro s _ _
    rfl
  | cons p ps ih =>
    intro s hpw hinvar
    rcases List.pairwise_cons.mp hpw with ⟨hhead, hps⟩
    have hnocol : s.records.any (fun r => decide (r.1 = p.1 + inc)) = false := by
      rw [List.any_eq_false]
      intro r hr
      simp only [decide_eq_true_eq]
      intro hcol
      have hmem := hinvar p (List.mem_cons_self p ps) r hr hcol
      rw [hcol] at hmem
      rcases List.mem_map.mp hmem with ⟨x, hx, hx1⟩
      rcases List.mem_cons.mp hx with h1 | h1
      · rw [h1] at hx1
        omega
      · exact (hhead x h1).2 hx1
    have hstep : shiftStep inc s p = some (applyShift inc s p) := by
      unfold shiftStep
      rw [hnocol]
      simp
    simp only [shiftAll]
    rw [hstep, List.foldl_cons]
    apply ih (applyShift inc s p) hps
    intro q hq r1 hr1 hcol
    have hr1m : r1 ∈ s.records.map (updateRowAid inc p) := hr1
    obtain ⟨r, hr, hreq⟩ := List.mem_map.mp hr1m
    by_cases hrp : r.1 = p.1
    · exfalso
      have hval : r1.1 = p.1 + inc := by
        rw [← hreq]
        simp [updateRowAid, hrp]
      rw [hcol] at hval
      have h2 := (hhead q hq).1
      omega
    · have hr1r : r1 = r := by
        rw [← hreq]
        unfold updateRowAid
        rw [if_neg hrp]
      rw [hr1r] at hcol ⊢
      have hmem := hinvar q (List.mem_cons_of_mem p hq) r hr hcol
      rcases List.mem_map.mp hmem with ⟨x, hx, hx1⟩
      rcases List.mem_cons.mp hx with h1 | h1
      · exfalso
        rw [h1] at hx1
        exact hrp hx1.symm
      · exact List.mem_map.mpr ⟨x, h1, hx1⟩

/-- Renumbering succeeds whenever the increment is `+1`, or `-1` with not
both `k` and `k-1` live — the only collision the checked update can hit at
these increments under the table's uniqueness invariant. -/
theorem increase_ok (st : Store) (k inc : Int) (hfe : st.fileExists = true)
    (hnd : (st.records.map (fun r => r.1)).Nodup)
    (hsafe : inc = 1 ∨ (inc = -1 ∧ (k ∉ st.records.map (fun r => r.1)
        ∨ (k - 1) ∉ st.records.map (fun r => r.1)))) :
    increase_annot_ids st k inc
      = (true, (renumberOrder st.records k inc).foldl (applyShift inc) st) := by
  have hinc : inc = 1 ∨ inc = -1 := by
    rcases hsafe with h | ⟨h, -⟩
    · exact Or.inl h
    · exact Or.inr h
  have hpw := renumberOrder_cond st.records k inc hnd hinc
  have hinvar : ∀ p ∈ renumberOrder st.records k inc, ∀ r ∈ st.records,
      r.1 = p.1 + inc → r.1 ∈ (renumberOrder st.records k inc).map (fun x => x.1) := by
    intro p hp r hr hcol
    have hpf : p ∈ st.records.filter (fun x => decide (k ≤ x.1)) :=
      (renumberOrder_perm st.records k inc).mem_iff.mp hp
    have hpk : k ≤ p.1 := by simpa using (List.mem_filter.mp hpf).2
    have hrk : k ≤ r.1 := by
      rcases hsafe with h1 | ⟨h1, hk⟩
      · subst h1
        omega
      · subst h1
        by_cases hpk2 : p.1 = k
        · exfalso
          have hpmem : p ∈ st.records := (List.mem_filter.mp hpf).1
          have hkin : k ∈ st.records.map (fun x => x.1) :=
            List.mem_map.mpr ⟨p, hpmem, hpk2⟩
          have hk1in : (k - 1) ∈ st.records.map (fun x => x.1) :=
            List.mem_map.mpr ⟨r, hr, by rw [hcol, hpk2]; omega⟩
          rcases hk with h2 | h2
          · exact h2 hkin
          · exact h2 hk1in
        · omega
    have hrf : r ∈ st.records.filter (fun x => decide (k ≤ x.1)) :=
      List.mem_filter.mpr ⟨hr, by simpa using hrk⟩
    have hrP : r ∈ renumberOrder st.records k inc :=
      (renumberOrder_perm st.records k inc).mem_iff.mpr hrf
    exact List.mem_map.mpr ⟨r, hrP, rfl⟩
  have hne : inc ≠ 0 := by
    rcases hinc with h | h <;> simp [h]
  unfold increase_annot_ids
  rw [hfe]
  simp only [if_true]
  rw [shiftAll_ok inc hne _ st hpw hinvar]

theorem increase_records (st : Store) (k inc : Int) (hfe : st.fileExists = true)
    (hnd : (st.records.map (fun r => r.1)).Nodup)
    (hsafe : inc = 1 ∨ (inc = -1 ∧ (k ∉ st.records.map (fun r => r.1)
        ∨ (k - 1) ∉ st.records.map (fun r => r.1)))) :
    ((increase_annot_ids st k inc).2).records
      = st.records.map (fun r => if k ≤ r.1 then (r.1 + inc, r.2) else r) := by
  have hinc : inc = 1 ∨ inc = -1 := by
    rcases hsafe with h | ⟨h, -⟩
    · exact Or.inl h
    · exact Or.inr h
  rw [increase_ok st k inc hfe hnd hsafe]
  show ((renumberOrder st.records k inc).foldl (applyShift inc) st).records = _
  rw [foldl_applyShift_records]
  apply List.map_congr_left
  intro r hr
  by_cases hk : k ≤ r.1
  · rw [if_pos hk]
    apply rowFold_mem
    · exact renumberOrder_cond st.records k inc hnd hinc
    · have hrf : r ∈ st.records.filter (fun x => decide (k ≤ x.1)) :=
        List.mem_filter.mpr ⟨hr, by simpa using hk⟩
      have hrP : r ∈ renumberOrder st.records k inc :=
        (renumberOrder_perm st.records k inc).mem_iff.mpr hrf
      exact List.mem_map.mpr ⟨r, hrP, rfl⟩
  · rw [if_neg hk]
    apply rowFold_not_mem
    intro p hp
    have hpf : p ∈ st.records.filter (fun x => decide (k ≤ x.1)) :=
      (renumberOrder_perm st.records k inc).mem_iff.mp hp
    have hple := (List.mem_filter.mp hpf).2
    simp only [decide_eq_true_eq] at hple
    omega

theorem increase_fileExists (st : Store) (k inc : Int) :
    ((increase_annot_ids st k inc).2).fileExists = st.fileExists := by
  unfold increase_annot_ids
  split
  · cases hs : shiftAll inc (renumberOrder st.records k inc) st with
    | none => rfl
    | some st1 =>
      show st1.fileExists = st.fileExists
      exact shiftAll_fileExists inc _ st st1 hs
  · rfl

/-- When `increase_annotation_ids` reports failure — no FileRecord, or an
`UPDATE` hit the uniqueness constraint — the store is unchanged. -/
theorem increase_fail_state (st : Store) (k inc : Int)
    (h : (increase_annot_ids st k inc).1 = false) :
    (increase_annot_ids st k inc).2 = st := by
  unfold increase_annot_ids at h ⊢
  by_cases hfe : st.fileExists = true
  · rw [if_pos hfe] at h ⊢
    cases hs : shiftAll inc (renumberOrder st.records k inc) st with
    | none => rfl
    | some st1 =>
      rw [hs] at h
      simp at h
  · rw [if_neg hfe]

/-- With `-1` and both `k` and `k-1` live, the very first `UPDATE` of the
ascending pass (on the row with id `k`) violates the uniqueness constraint:
the function returns `false` and the store is unchanged. -/
theorem increase_neg_fails (st : Store) (k : Int) (hfe : st.fileExists = true)
    (hnd : (st.records.map (fun r => r.1)).Nodup)
    (hk : k ∈ st.records.map (fun r => r.1))
    (hk1 : (k - 1) ∈ st.records.map (fun r => r.1)) :
    increase_annot_ids st k (-1) = (false, st) := by
  obtain ⟨rk, hrkmem, hrk1⟩ := List.mem_map.mp hk
  have hrkf : rk ∈ st.records.filter (fun x => decide (k ≤ x.1)) :=
    List.mem_filter.mpr ⟨hrkmem, by simp [hrk1]⟩
  have hrkP : rk ∈ renumberOrder st.records k (-1) :=
    (renumberOrder_perm st.records k (-1)).mem_iff.mpr hrkf
  cases hP : renumberOrder st.records k (-1) with
  | nil =>
    rw [hP] at hrkP
    cases hrkP
  | cons p0 ps =>
    have hasc := renumberOrder_asc st.records k hnd
    rw [hP] at hasc hrkP
    rcases List.pairwise_cons.mp hasc with ⟨hhead, -⟩
    have hp0f : p0 ∈ st.records.filter (fun x => decide (k ≤ x.1)) := by
      have hmem : p0 ∈ renumberOrder st.records k (-1) := by
        rw [hP]
        exact List.mem_cons_self p0 ps
      exact (renumberOrder_perm st.records k (-1)).mem_iff.mp hmem
    have hp0k : k ≤ p0.1 := by simpa using (List.mem_filter.mp hp0f).2
    have hp0eq : p0.1 = k := by
      rcases List.mem_cons.mp hrkP with h1 | h1
      · rw [← h1, hrk1]
      · have h2 := hhead rk h1
        rw [hrk1] at h2
        omega
    have hany1 : st.records.any (fun r => decide (r.1 = p0.1)) = true :=
      List.any_eq_true.mpr ⟨rk, hrkmem, by simp [hrk1, hp0eq]⟩
    have hany2 : st.records.any (fun r => decide (r.1 = p0.1 + -1)) = true := by
      obtain ⟨r1, hr1mem, hr11⟩ := List.mem_map.mp hk1
      refine List.any_eq_true.mpr ⟨r1, hr1mem, ?_⟩
      simp only [decide_eq_true_eq, hr11, hp0eq]
      omega
    unfold increase_annot_ids
    rw [hfe]
    simp only [if_true]
    rw [hP]
    simp [shiftAll, shiftStep, hany1, hany2]

theorem shifted_nodup (aids : List Int) (k inc : Int) (h : aids.Nodup)
    (hcase : inc = 1 ∨ (inc = -1 ∧ (k ∉ aids ∨ (k - 1) ∉ aids))) :
    (aids.map (fun a => if k ≤ a then a + inc else a)).Nodup := by
  rw [List.Nodup, List.pairwise_map]
  have hpw : aids.Pairwise (fun a b => a ≠ b) := h
  refine List.Pairwise.imp_of_mem ?_ hpw
  intro a b ha hb hab
  rcases hcase with h1 | ⟨h1, hk⟩
  · subst h1
    split_ifs <;> simp <;> omega
  · subst h1
    rcases hk with hk | hk
    · have hka : a ≠ k := fun hc => hk (hc ▸ ha)
      have hkb : b ≠ k := fun hc => hk (hc ▸ hb)
      split_ifs <;> simp <;> omega
    · have hka : a ≠ k - 1 := fun hc => hk (hc ▸ ha)
      have hkb : b ≠ k - 1 := fun hc => hk (hc ▸ hb)
      split_ifs <;> simp <;> omega

theorem increase_aid_nodup (st : Store) (k inc : Int) (hfe : st.fileExists = true)
    (hnd : (st.records.map (fun r => r.1)).Nodup)
    (hsafe : inc = 1 ∨ (inc = -1 ∧ (k ∉ st.records.map (fun r => r.1)
        ∨ (k - 1) ∉ st.records.map (fun r => r.1)))) :
    (((increase_annot_ids st k inc).2).records.map (fun r => r.1)).Nodup := by
  rw [increase_records st k inc hfe hnd hsafe, List.map_map]
  have heq : st.records.map
        ((fun r : Int × String => r.1) ∘ (fun r => if k ≤ r.1 then (r.1 + inc, r.2) else r))
      = (st.records.map (fun r => r.1)).map (fun a => if k ≤ a then a + inc else a) := by
    rw [List.map_map]
    apply List.map_congr_left
    intro r _
    show (if k ≤ r.1 then ((r.1 + inc, r.2) : Int × String) else r).1
        = if k ≤ r.1 then r.1 + inc else r.1
    split_ifs <;> rfl
  rw [heq]
  exact shifted_nodup _ k inc hnd hsafe

/-- C4 (amended): renumbering with `+1` shifts exactly the records with id
`>= k` up by one and leaves the rest intact; with `-1` it shifts them down
by one provided the store does not hold rows with both ids `k` and `k-1` —
when it does, the first `UPDATE` of the ascending pass violates the
`UNIQUE (file_id, annotation_id)` constraint and renumbering returns
`false` with the rows unchanged; `+1` then `-1` with the same threshold
always restores the records exactly; and the snapshot is processed in
strictly descending id order for `+1` and strictly ascending order for
`-1`. -/
theorem C4_renumber (st : Store) (k : Int) (hfe : st.fileExists = true)
    (hnd : (st.records.map (fun r => r.1)).Nodup) :
    ((increase_annot_ids st k 1).2).records
        = st.records.map (fun r => if k ≤ r.1 then (r.1 + 1, r.2) else r)
    ∧ ((k ∉ st.records.map (fun r => r.1) ∨ (k - 1) ∉ st.records.map (fun r => r.1)) →
        ((increase_annot_ids st k (-1)).2).records
          = st.records.map (fun r => if k ≤ r.1 then (r.1 - 1, r.2) else r))
    ∧ (k ∈ st.records.map (fun r => r.1) → (k - 1) ∈ st.records.map (fun r => r.1) →
        increase_annot_ids st k (-1) = (false, st))
    ∧ ((increase_annot_ids (increase_annot_ids st k 1).2 k (-1)).2).records = st.records
    ∧ (renumberOrder st.records k 1).Pairwise (fun p q => q.1 < p.1)
    ∧ (renumberOrder st.records k (-1)).Pairwise (fun p q => p.1 < q.1) := by
  have h1 := increase_records st k 1 hfe hnd (Or.inl rfl)
  have h2s : (k ∉ st.records.map (fun r => r.1) ∨ (k - 1) ∉ st.records.map (fun r => r.1)) →
      ((increase_annot_ids st k (-1)).2).records
        = st.records.map (fun r => if k ≤ r.1 then (r.1 - 1, r.2) else r) := by
    intro hsafe2
    rw [increase_records st k (-1) hfe hnd (Or.inr ⟨rfl, hsafe2⟩)]
    apply List.map_congr_left
    intro r _
    split_ifs
    · simp only [Prod.mk.injEq]
      exact ⟨by omega, trivial⟩
    · rfl
  refine ⟨h1, h2s, increase_neg_fails st k hfe hnd, ?_,
    renumberOrder_desc st.records k hnd, renumberOrder_asc st.records k hnd⟩
  have hfe1 : ((increase_annot_ids st k 1).2).fileExists = true := by
    rw [increase_fileExists]
    exact hfe
  have hnd1 : (((increase_annot_ids st k 1).2).records.map (fun r => r.1)).Nodup :=
    increase_aid_nodup st k 1 hfe hnd (Or.inl rfl)
  have hknotin : k ∉ ((increase_annot_ids st k 1).2).records.map (fun r => r.1) := by
    rw [h1, List.map_map]
    intro hc
    obtain ⟨r, hr, hrval⟩ := List.mem_map.mp hc
    have hrval2 : (if k ≤ r.1 then ((r.1 + 1, r.2) : Int × String) else r).1 = k := hrval
    split_ifs at hrval2 <;> omega
  rw [increase_records _ k (-1) hfe1 hnd1 (Or.inr ⟨rfl, Or.inl hknotin⟩), h1, List.map_map]
  have heq : st.records.map
        ((fun r : Int × String => if k ≤ r.1 then (r.1 + -1, r.2) else r)
          ∘ (fun r => if k ≤ r.1 then (r.1 + 1, r.2) else r))
      = st.records.map (fun r => r) := by
    apply List.map_congr_left
    intro r _
    show (if k ≤ (if k ≤ r.1 then ((r.1 + 1, r.2) : Int × String) else r).1
          then (((if k ≤ r.1 then ((r.1 + 1, r.2) : Int × String) else r).1 + -1,
                 (if k ≤ r.1 then ((r.1 + 1, r.2) : Int × String) else r).2) : Int × String)
          else (if k ≤ r.1 then ((r.1 + 1, r.2) : Int × String) else r)) = r
    by_cases hk : k ≤ r.1
    · rw [if_pos hk]
      have hk2 : k ≤ ((r.1 + 1, r.2) : Int × String).1 := by
        show k ≤ r.1 + 1
        omega
      rw [if_pos hk2]
      show ((r.1 + 1 + -1, r.2) : Int × String) = r
      have : r.1 + 1 + -1 = r.1 := by omega
      rw [this]
    · rw [if_neg hk, if_neg hk]
  rw [heq, List.map_id']

/-- C4 counterexample: with records at ids 1 and 2, `renumber(file, 2, -1)`
does not decrement record 2 — its `UPDATE` to id 1 collides with the
existing row 1, so the function reports failure and the rows stay
unchanged, contradicting the claimed unconditional decrement. -/
theorem C4_counterexample :
    increase_annot_ids ⟨true, [(1, "a.md"), (2, "b.md")], []⟩ 2 (-1)
      = (false, ⟨true, [(1, "a.md"), (2, "b.md")], []⟩)
    ∧ ((increase_annot_ids ⟨true, [(1, "a.md"), (2, "b.md")], []⟩ 2 (-1)).2).records
      ≠ [(1, "a.md"), (2, "b.md")].map
          (fun r => if (2 : Int) ≤ r.1 then (r.1 - 1, r.2) else r) := by
  constructor
  · rfl
  · decide

/-- Witness for C4 on a concrete three-record store with threshold 2. -/
theorem C4_renumber_witness :
    ((⟨true, [(1, "a.md"), (2, "b.md"), (3, "c.md")], []⟩ : Store).fileExists = true
      ∧ (((⟨true, [(1, "a.md"), (2, "b.md"), (3, "c.md")], []⟩ : Store).records.map
            (fun r => r.1)).Nodup))
    ∧ ((increase_annot_ids ⟨true, [(1, "a.md"), (2, "b.md"), (3, "c.md")], []⟩ 2 1).2).records
        = [(1, "a.md"), (3, "b.md"), (4, "c.md")]
    ∧ ((increase_annot_ids
          (increase_annot_ids ⟨true, [(1, "a.md"), (2, "b.md"), (3, "c.md")], []⟩ 2 1).2
          2 (-1)).2).records
        = [(1, "a.md"), (2, "b.md"), (3, "c.md")]
    ∧ increase_annot_ids ⟨true, [(1, "a.md"), (2, "b.md"), (3, "c.md")], []⟩ 2 (-1)
        = (false, ⟨true, [(1, "a.md"), (2, "b.md"), (3, "c.md")], []⟩) := by
  have h := C4_renumber ⟨true, [(1, "a.md"), (2, "b.md"), (3, "c.md")], []⟩ 2 rfl (by decide)
  refine ⟨⟨rfl, by decide⟩, ?_, h.2.2.2.1, h.2.2.1 (by decide) (by decide)⟩
  rw [h.1]
  decide

/-! ### C2: the renumber result is ignored by createAnnotation -/

/-- The store of a fresh project: no FileRecord, no rows, no notes. -/
def initStore : Store := ⟨false, [], []⟩

/-- C2 counterexample: on a fresh file the renumber step reports failure
(`false`, no FileRecord), yet `createAnnotation` proceeds and the store does
not stay unchanged — the record is inserted anyway. -/
theorem C2_counterexample :
    (increase_annot_ids initStore 1 1).1 = false
    ∧ create_annot_cmd initStore 1 "note_20250101_000000.md"
        = some ⟨true, [(1, "note_20250101_000000.md")], [("note_20250101_000000.md", 1)]⟩
    ∧ (⟨true, [(1, "note_20250101_000000.md")], [("note_20250101_000000.md", 1)]⟩ : Store)
        ≠ initStore :=
  ⟨rfl, rfl, by decide⟩

/-- C2 (amended): `createAnnotation` does not make the renumber step and the
record insertion one atomic transaction — it ignores the renumber result,
and whenever the insertion itself succeeds the record is appended even
though renumbering reported failure, so the store changes. -/
theorem C2_renumber_ignored (st : Store) (newId : Int) (nf : String) (st2 : Store)
    (hfail : (increase_annot_ids st newId 1).1 = false)
    (h : create_annot_cmd st newId nf = some st2) :
    st2.records = st.records ++ [(newId, nf)] ∧ st2.records ≠ st.records := by
  have hst1 : (increase_annot_ids st newId 1).2 = st :=
    increase_fail_state st newId 1 hfail
  unfold create_annot_cmd at h
  rw [hst1] at h
  by_cases hany : st.records.any (fun r => decide (r.1 = newId)) = true
  · rw [if_pos hany] at h
    simp at h
  · rw [if_neg hany] at h
    have h2 := Option.some.inj h
    constructor
    · rw [← h2]
    · rw [← h2]
      intro hc
      have := congrArg List.length hc
      simp at this

/-- Witness for C2 (amended) on the fresh store. -/
theorem C2_renumber_ignored_witness :
    (increase_annot_ids initStore 1 1).1 = false
    ∧ create_annot_cmd initStore 1 "n.md" = some ⟨true, [(1, "n.md")], [("n.md", 1)]⟩
    ∧ (⟨true, [(1, "n.md")], [("n.md", 1)]⟩ : Store).records
        = initStore.records ++ [(1, "n.md")] :=
  ⟨rfl, rfl,
    (C2_renumber_ignored initStore 1 "n.md" ⟨true, [(1, "n.md")], [("n.md", 1)]⟩ rfl rfl).1⟩

/-! ### C1: id metadata consistency across command sequences -/

/-- Reading the `id` metadata of a note document, `none` when absent. -/
def lookupNote (notes : List (String × Int)) (nf : String) : Option Int :=
  (notes.find? (fun q => decide (q.1 = nf))).map (fun q => q.2)

/-- The claimed invariant: every record's note document carries `id`
metadata equal to the record's current id. -/
def NotesMatch (st : Store) : Prop :=
  ∀ r ∈ st.records, lookupNote st.notes r.2 = some r.1

instance (st : Store) : Decidable (NotesMatch st) := by
  unfold NotesMatch
  infer_instance

/-- The store invariant maintained by successful commands with fresh note
names: unique ids, unique note-file names per record, unique note documents,
and matching id metadata. -/
def StoreInv (st : Store) : Prop :=
  (st.records.map (fun r => r.1)).Nodup ∧ (st.records.map (fun r => r.2)).Nodup
  ∧ (st.notes.map (fun q => q.1)).Nodup ∧ NotesMatch st

theorem nodup_append_singleton {α : Type} (l : List α) (a : α) :
    (l ++ [a]).Nodup ↔ l.Nodup ∧ a ∉ l := by
  simp [List.nodup_append]

theorem increase_inv (st : Store) (k inc : Int) (hinv : StoreInv st)
    (hcase : inc = 1 ∨ (inc = -1 ∧ k ∉ st.records.map (fun r => r.1))) :
    StoreInv ((increase_annot_ids st k inc).2)
    ∧ ((increase_annot_ids st k inc).2).notes.map (fun q => q.1)
        = st.notes.map (fun q => q.1)
    ∧ ((increase_annot_ids st k inc).2).records.map (fun r => r.2)
        = st.records.map (fun r => r.2)
    ∧ ((increase_annot_ids st k inc).2).fileExists = st.fileExists := by
  obtain ⟨hnd1, hnd2, hnd3, hnm⟩ := hinv
  have hinc : inc = 1 ∨ inc = -1 := by
    rcases hcase with h1 | ⟨h1, -⟩
    · exact Or.inl h1
    · exact Or.inr h1
  by_cases hfe : st.fileExists = true
  case neg =>
    have hid : increase_annot_ids st k inc = (false, st) := by
      unfold increase_annot_ids
      rw [if_neg hfe]
    rw [hid]
    exact ⟨⟨hnd1, hnd2, hnd3, hnm⟩, rfl, rfl, rfl⟩
  case pos =>
    have hsafe : inc = 1 ∨ (inc = -1 ∧ (k ∉ st.records.map (fun r => r.1)
        ∨ (k - 1) ∉ st.records.map (fun r => r.1))) := by
      rcases hcase with h1 | ⟨h1, hk⟩
      · exact Or.inl h1
      · exact Or.inr ⟨h1, Or.inl hk⟩
    have hrec := increase_records st k inc hfe hnd1 hsafe
    have hnotes2 : ((increase_annot_ids st k inc).2).notes
        = st.notes.map (noteFold inc (renumberOrder st.records k inc)) := by
      rw [increase_ok st k inc hfe hnd1 hsafe]
      show ((renumberOrder st.records k inc).foldl (applyShift inc) st).notes = _
      exact foldl_applyShift_notes inc _ st
    have hnames : ((increase_annot_ids st k inc).2).notes.map (fun q => q.1)
        = st.notes.map (fun q => q.1) := by
      rw [hnotes2, List.map_map]
      apply List.map_congr_left
      intro q _
      exact noteFold_fst inc _ q
    have hnfs : ((increase_annot_ids st k inc).2).records.map (fun r => r.2)
        = st.records.map (fun r => r.2) := by
      rw [hrec, List.map_map]
      apply List.map_congr_left
      intro r _
      show (if k ≤ r.1 then ((r.1 + inc, r.2) : Int × String) else r).2 = r.2
      split_ifs <;> rfl
    have hPnf : (renumberOrder st.records k inc).Pairwise (fun a b => a.2 ≠ b.2) := by
      have hsub : List.Sublist (st.records.filter (fun x => decide (k ≤ x.1))) st.records :=
        List.filter_sublist st.records
      have hfn : ((st.records.filter (fun x => decide (k ≤ x.1))).map (fun r => r.2)).Nodup :=
        (hsub.map (fun r => r.2)).nodup hnd2
      have hperm := (renumberOrder_perm st.records k inc).map (fun r => r.2)
      have : ((renumberOrder st.records k inc).map (fun r => r.2)).Nodup :=
        hperm.nodup_iff.mpr hfn
      rw [List.Nodup, List.pairwise_map] at this
      exact this
    refine ⟨⟨increase_aid_nodup st k inc hfe hnd1 hsafe, ?_, ?_, ?_⟩,
      hnames, hnfs, increase_fileExists st k inc⟩
    · rw [hnfs]
      exact hnd2
    · rw [hnames]
      exact hnd3
    · intro rr hrr
      rw [hrec] at hrr
      obtain ⟨r, hr, hshift⟩ := List.mem_map.mp hrr
      by_cases hk : k ≤ r.1
      · rw [if_pos hk] at hshift
        subst hshift
        rw [hnotes2]
        unfold lookupNote
        rw [List.find?_map]
        have hpred : ((fun q : String × Int => decide (q.1 = ((r.1 + inc, r.2) : Int × String).2))
              ∘ (noteFold inc (renumberOrder st.records k inc)))
            = fun q : String × Int => decide (q.1 = r.2) := by
          funext q
          simp [Function.comp, noteFold_fst]
        rw [hpred]
        have hfound := hnm r hr
        unfold lookupNote at hfound
        cases hfind : st.notes.find? (fun q => decide (q.1 = r.2)) with
        | none =>
          rw [hfind] at hfound
          simp at hfound
        | some q0 =>
          rw [hfind] at hfound
          have hq01 : q0.1 = r.2 := by
            have := List.find?_some hfind
            simpa using this
          have hrP : r ∈ renumberOrder st.records k inc := by
            have hrf : r ∈ st.records.filter (fun x => decide (k ≤ x.1)) :=
              List.mem_filter.mpr ⟨hr, by simpa using hk⟩
            exact (renumberOrder_perm st.records k inc).mem_iff.mpr hrf
          have hnf := noteFold_mem inc (renumberOrder st.records k inc) q0 r hrP
            (by simpa using hq01) hPnf
          rw [Option.map_some', hnf]
          simp
      · rw [if_neg hk] at hshift
        subst hshift
        rw [hnotes2]
        unfold lookupNote
        rw [List.find?_map]
        have hpred : ((fun q : String × Int => decide (q.1 = r.2))
              ∘ (noteFold inc (renumberOrder st.records k inc)))
            = fun q : String × Int => decide (q.1 = r.2) := by
          funext q
          simp [Function.comp, noteFold_fst]
        rw [hpred]
        have hfound := hnm r hr
        unfold lookupNote at hfound
        cases hfind : st.notes.find? (fun q => decide (q.1 = r.2)) with
        | none =>
          rw [hfind] at hfound
          simp at hfound
        | some q0 =>
          rw [hfind] at hfound
          have hq01 : q0.1 = r.2 := by
            have := List.find?_some hfind
            simpa using this
          have hnf : noteFold inc (renumberOrder st.records k inc) q0 = q0 := by
            apply noteFold_not_mem
            intro p hp
            have hpf : p ∈ st.records.filter (fun x => decide (k ≤ x.1)) :=
              (renumberOrder_perm st.records k inc).mem_iff.mp hp
            obtain ⟨hpmem, hple⟩ := List.mem_filter.mp hpf
            simp only [decide_eq_true_eq] at hple
            rw [hq01]
            intro hc
            have hpr : p = r := List.inj_on_of_nodup_map hnd2 hpmem hr hc
            rw [hpr] at hple
            omega
          rw [Option.map_some', hnf]
          exact hfound

theorem create_preserves (st : Store) (newId : Int) (nf : String) (st2 : Store)
    (hinv : StoreInv st) (hfresh : nf ∉ st.notes.map (fun q => q.1))
    (h : create_annot_cmd st newId nf = some st2) :
    StoreInv st2
    ∧ (∀ x ∈ st2.notes.map (fun q => q.1), x ∈ st.notes.map (fun q => q.1) ∨ x = nf) := by
  obtain ⟨hinv1, hnames, hnfs, hfe⟩ := increase_inv st newId 1 hinv (Or.inl rfl)
  obtain ⟨h1a, h1b, h1c, h1d⟩ := hinv1
  have hfresh1 : nf ∉ ((increase_annot_ids st newId 1).2).notes.map (fun q => q.1) := by
    rw [hnames]
    exact hfresh
  have hrecnf : ∀ r ∈ ((increase_annot_ids st newId 1).2).records,
      r.2 ∈ ((increase_annot_ids st newId 1).2).notes.map (fun q => q.1) := by
    intro r hr
    have hl := h1d r hr
    unfold lookupNote at hl
    cases hfind : ((increase_annot_ids st newId 1).2).notes.find?
        (fun q => decide (q.1 = r.2)) with
    | none =>
      rw [hfind] at hl
      simp at hl
    | some q0 =>
      have hq01 : q0.1 = r.2 := by
        have := List.find?_some hfind
        simpa using this
      have hq0mem := List.mem_of_find?_eq_some hfind
      exact List.mem_map.mpr ⟨q0, hq0mem, hq01⟩
  have hnfnotin : nf ∉ ((increase_annot_ids st newId 1).2).records.map (fun r => r.2) := by
    intro hc
    obtain ⟨r, hr, hrnf⟩ := List.mem_map.mp hc
    exact hfresh1 (hrnf ▸ hrecnf r hr)
  unfold create_annot_cmd at h
  by_cases hany : ((increase_annot_ids st newId 1).2).records.any
      (fun r => decide (r.1 = newId)) = true
  · rw [if_pos hany] at h
    simp at h
  · rw [if_neg hany] at h
    have h2 := Option.some.inj h
    have hwnotes : write_note ((increase_annot_ids st newId 1).2).notes nf newId
        = ((increase_annot_ids st newId 1).2).notes ++ [(nf, newId)] := by
      unfold write_note
      rw [if_neg]
      intro hc
      obtain ⟨q, hq, hqd⟩ := List.any_eq_true.mp hc
      simp only [decide_eq_true_eq] at hqd
      exact hfresh1 (List.mem_map.mpr ⟨q, hq, hqd⟩)
    have hnewnotin : newId ∉ ((increase_annot_ids st newId 1).2).records.map (fun r => r.1) := by
      intro hc
      obtain ⟨r, hr, hr1⟩ := List.mem_map.mp hc
      apply hany
      exact List.any_eq_true.mpr ⟨r, hr, by simpa using hr1⟩
    constructor
    · rw [← h2]
      refine ⟨?_, ?_, ?_, ?_⟩
      · show ((((increase_annot_ids st newId 1).2).records ++ [(newId, nf)]).map
            (fun r => r.1)).Nodup
        rw [List.map_append]
        simp only [List.map_cons, List.map_nil]
        rw [nodup_append_singleton]
        exact ⟨h1a, by simpa using hnewnotin⟩
      · show ((((increase_annot_ids st newId 1).2).records ++ [(newId, nf)]).map
            (fun r => r.2)).Nodup
        rw [List.map_append]
        simp only [List.map_cons, List.map_nil]
        rw [nodup_append_singleton]
        exact ⟨h1b, by simpa using hnfnotin⟩
      · show ((write_note ((increase_annot_ids st newId 1).2).notes nf newId).map
            (fun q => q.1)).Nodup
        rw [hwnotes, List.map_append]
        simp only [List.map_cons, List.map_nil]
        rw [nodup_append_singleton]
        exact ⟨h1c, by simpa using hfresh1⟩
      · intro r hr
        show lookupNote (write_note ((increase_annot_ids st newId 1).2).notes nf newId) r.2
            = some r.1
        rw [hwnotes]
        have hr' : r ∈ ((increase_annot_ids st newId 1).2).records ++ [(newId, nf)] := hr
        rcases List.mem_append.mp hr' with hm | hm
        · unfold lookupNote
          rw [List.find?_append]
          have hfound := h1d r hm
          unfold lookupNote at hfound
          cases hfind : ((increase_annot_ids st newId 1).2).notes.find?
              (fun q => decide (q.1 = r.2)) with
          | none =>
            rw [hfind] at hfound
            simp at hfound
          | some q0 =>
            rw [hfind] at hfound
            simpa using hfound
        · have hm2 : r = (newId, nf) := by simpa using hm
          subst hm2
          unfold lookupNote
          rw [List.find?_append]
          have hnone : ((increase_annot_ids st newId 1).2).notes.find?
              (fun q => decide (q.1 = (newId, nf).2)) = none := by
            apply List.find?_eq_none.mpr
            intro q hq
            simp only [decide_eq_true_eq]
            intro hc
            exact hfresh1 (List.mem_map.mpr ⟨q, hq, hc⟩)
          rw [hnone]
          simp [List.find?]
    · intro x hx
      rw [← h2] at hx
      have hx2 : x ∈ (write_note ((increase_annot_ids st newId 1).2).notes nf newId).map
          (fun q => q.1) := hx
      rw [hwnotes, List.map_append] at hx2
      rcases List.mem_append.mp hx2 with hm | hm
      · left
        rw [← hnames]
        exact hm
      · right
        simpa using hm

theorem delete_preserves (st : Store) (aid : Int) (st2 : Store)
    (hinv : StoreInv st) (h : delete_annot_cmd st aid = some st2) :
    StoreInv st2
    ∧ (∀ x ∈ st2.notes.map (fun q => q.1), x ∈ st.notes.map (fun q => q.1)) := by
  obtain ⟨hnd1, hnd2, hnd3, hnm⟩ := hinv
  unfold delete_annot_cmd at h
  by_cases hfe : st.fileExists = true
  case neg =>
    rw [if_neg hfe] at h
    simp at h
  case pos =>
    rw [if_pos hfe] at h
    cases hfind : st.records.find? (fun r => decide (r.1 = aid)) with
    | none =>
      rw [hfind] at h
      simp at h
    | some r =>
      rw [hfind] at h
      have hrmem : r ∈ st.records := List.mem_of_find?_eq_some hfind
      have hraid : r.1 = aid := by
        have := List.find?_some hfind
        simpa using this
      have hsub1 : List.Sublist ((deleteRow st aid).records) st.records :=
        List.filter_sublist st.records
      have hinvrow : StoreInv (deleteRow st aid) := by
        refine ⟨(hsub1.map (fun x => x.1)).nodup hnd1,
          (hsub1.map (fun x => x.2)).nodup hnd2, hnd3, ?_⟩
        intro x hx
        exact hnm x (hsub1.mem hx)
      have haidnot : aid ∉ (deleteRow st aid).records.map (fun x => x.1) := by
        intro hc
        obtain ⟨x, hxmem, hx1⟩ := List.mem_map.mp hc
        have := (List.mem_filter.mp hxmem).2
        simp only [Bool.not_eq_true', decide_eq_false_iff_not] at this
        exact this hx1
      obtain ⟨⟨h2a, h2b, h2c, h2d⟩, hnames2, hnfs2, hfe2⟩ :=
        increase_inv (deleteRow st aid) aid (-1) hinvrow (Or.inr ⟨rfl, haidnot⟩)
      have h2 := Option.some.inj h
      have hnfne : ∀ x ∈ ((increase_annot_ids (deleteRow st aid) aid (-1)).2).records,
          x.2 ≠ r.2 := by
        intro x hx
        have hx2 : x.2 ∈ ((increase_annot_ids (deleteRow st aid) aid (-1)).2).records.map
            (fun y => y.2) := List.mem_map.mpr ⟨x, hx, rfl⟩
        rw [hnfs2] at hx2
        obtain ⟨y, hymem, hy2⟩ := List.mem_map.mp hx2
        have hyrec : y ∈ st.records := hsub1.mem hymem
        have hyne : y.1 ≠ aid := by
          have := (List.mem_filter.mp hymem).2
          simpa [Bool.not_eq_true', decide_eq_false_iff_not] using this
        rw [← hy2]
        intro hc
        have : y = r := List.inj_on_of_nodup_map hnd2 hyrec hrmem hc
        rw [this] at hyne
        exact hyne hraid
      constructor
      · rw [← h2]
        refine ⟨h2a, h2b, ?_, ?_⟩
        · show ((((increase_annot_ids (deleteRow st aid) aid (-1)).2).notes.filter
              (fun q => !decide (q.1 = r.2))).map (fun q => q.1)).Nodup
          have hsubn : List.Sublist
              (((increase_annot_ids (deleteRow st aid) aid (-1)).2).notes.filter
                (fun q => !decide (q.1 = r.2)))
              ((increase_annot_ids (deleteRow st aid) aid (-1)).2).notes :=
            List.filter_sublist _
          exact (hsubn.map (fun q => q.1)).nodup (by rw [hnames2]; exact hnd3)
        · intro x hx
          show lookupNote (((increase_annot_ids (deleteRow st aid) aid (-1)).2).notes.filter
              (fun q => !decide (q.1 = r.2))) x.2 = some x.1
          unfold lookupNote
          rw [find?_filter_of]
          · exact h2d x hx
          · intro q _ hq
            simp only [decide_eq_true_eq] at hq
            simp only [Bool.not_eq_true', decide_eq_false_iff_not]
            rw [hq]
            exact hnfne x hx
      · intro x hx
        rw [← h2] at hx
        have hx2 : x ∈ (((increase_annot_ids (deleteRow st aid) aid (-1)).2).notes.filter
            (fun q => !decide (q.1 = r.2))).map (fun q => q.1) := hx
        have hsubn : List.Sublist
            (((increase_annot_ids (deleteRow st aid) aid (-1)).2).notes.filter
              (fun q => !decide (q.1 = r.2)))
            ((increase_annot_ids (deleteRow st aid) aid (-1)).2).notes :=
          List.filter_sublist _
        have := (hsubn.map (fun q => q.1)).mem hx2
        rw [hnames2] at this
        exact this

/-- A storage command of the language server: `createAnnotation` with its
computed new id and wall-clock creation time, or `deleteAnnotation` with the
id under the cursor. -/
inductive StCmd where
| create (newId : Int) (t : PyDateTime)
| delete (aid : Int)
deriving DecidableEq, Repr

def execCmd (st : Store) : StCmd → Option Store
| StCmd.create newId t => create_annot_cmd st newId (note_file_name t)
| StCmd.delete aid => delete_annot_cmd st aid

def execCmds : Store → List StCmd → Option Store
| st, [] => some st
| st, c :: cs =>
  match execCmd st c with
  | none => none
  | some st1 => execCmds st1 cs

/-- The note-file names generated by the create commands of a sequence. -/
def createNames : List StCmd → List String
| [] => []
| StCmd.create _ t :: cs => note_file_name t :: createNames cs
| StCmd.delete _ :: cs => createNames cs

theorem exec_inv : ∀ (cmds : List StCmd) (st st2 : Store), StoreInv st →
    (createNames cmds).Nodup →
    (∀ x ∈ createNames cmds, x ∉ st.notes.map (fun q => q.1)) →
    execCmds st cmds = some st2 → StoreInv st2 := by
  intro cmds
  induction cmds with
  | nil =>
    intro st st2 hinv _ _ h
    simp only [execCmds] at h
    have h2 := Option.some.inj h
    rw [← h2]
    exact hinv
  | cons c cs ih =>
    intro st st2 hinv hnd hfr h
    simp only [execCmds] at h
    cases hstep : execCmd st c with
    | none =>
      rw [hstep] at h
      simp at h
    | some st1 =>
      rw [hstep] at h
      cases c with
      | create newId t =>
        have hnd2 := hnd
        simp only [createNames] at hnd2
        have hnd' : (createNames cs).Nodup := (List.nodup_cons.mp hnd2).2
        have hnotmem : note_file_name t ∉ createNames cs := (List.nodup_cons.mp hnd2).1
        have hfrt : note_file_name t ∉ st.notes.map (fun q => q.1) := by
          apply hfr
          simp [createNames]
        obtain ⟨hinv1, hsub⟩ := create_preserves st newId (note_file_name t) st1 hinv hfrt hstep
        refine ih st1 st2 hinv1 hnd' ?_ h
        intro x hx hmem
        rcases hsub x hmem with h1 | h1
        · exact hfr x (by simp [createNames, hx]) h1
        · rw [h1] at hx
          exact hnotmem hx
      | delete aid =>
        obtain ⟨hinv1, hsub⟩ := delete_preserves st aid st1 hinv hstep
        refine ih st1 st2 hinv1 ?_ ?_ h
        · simpa [createNames] using hnd
        · intro x hx hmem
          exact hfr x (by simpa [createNames] using hx) (hsub x hmem)

/-- C1 (amended): starting from the empty store, any sequence of successful
`createAnnotation` / `deleteAnnotation` commands whose generated note-file
names are pairwise distinct (which holds whenever no two creations share the
same wall-clock second) leaves every surviving record with a note document
whose `id` metadata equals its current id. -/
theorem C1_notes_match (cmds : List StCmd) (st : Store)
    (hnd : (createNames cmds).Nodup)
    (hex : execCmds initStore cmds = some st) :
    NotesMatch st := by
  have hinv : StoreInv initStore := by
    refine ⟨by simp [initStore], by simp [initStore], by simp [initStore], ?_⟩
    intro r hr
    simp [initStore] at hr
  exact (exec_inv cmds initStore st hinv hnd (by simp [initStore]) hex).2.2.2

/-- Witness for C1 (amended): two creations in distinct seconds. -/
theorem C1_notes_match_witness :
    (createNames [StCmd.create 1 ⟨2024, 1, 2, 3, 4, 5, 0⟩,
        StCmd.create 2 ⟨2024, 1, 2, 3, 4, 6, 0⟩]).Nodup
    ∧ execCmds initStore [StCmd.create 1 ⟨2024, 1, 2, 3, 4, 5, 0⟩,
        StCmd.create 2 ⟨2024, 1, 2, 3, 4, 6, 0⟩]
      = some ⟨true,
          [(1, "note_20240102_030405.md"), (2, "note_20240102_030406.md")],
          [("note_20240102_030405.md", 1), ("note_20240102_030406.md", 2)]⟩
    ∧ NotesMatch ⟨true,
          [(1, "note_20240102_030405.md"), (2, "note_20240102_030406.md")],
          [("note_20240102_030405.md", 1), ("note_20240102_030406.md", 2)]⟩ :=
  ⟨by decide, by rfl,
    C1_notes_match [StCmd.create 1 ⟨2024, 1, 2, 3, 4, 5, 0⟩,
        StCmd.create 2 ⟨2024, 1, 2, 3, 4, 6, 0⟩] _ (by decide) (by rfl)⟩

/-- C1 counterexample: two successful creations within the same wall-clock
second generate the same note-file name; the second note overwrites the
first, leaving record 1 with a note whose `id` metadata is 2. -/
theorem C1_counterexample :
    execCmds initStore [StCmd.create 1 ⟨2024, 1, 2, 3, 4, 5, 0⟩,
        StCmd.create 2 ⟨2024, 1, 2, 3, 4, 5, 500000⟩]
      = some ⟨true,
          [(1, "note_20240102_030405.md"), (2, "note_20240102_030405.md")],
          [("note_20240102_030405.md", 2)]⟩
    ∧ ¬ NotesMatch ⟨true,
          [(1, "note_20240102_030405.md"), (2, "note_20240102_030405.md")],
          [("note_20240102_030405.md", 2)]⟩ :=
  ⟨by rfl, by decide⟩

/-! ### C7: the global configuration module (config.py)

`config.py` ends with `_config_manager = _ConfigManager()` followed by
`config = _config_manager.config` at module import time; the `config`
property materialises the default configuration when none is set, and
`initialize` refuses to overwrite an existing configuration.  The scanner
(utils.py) reads the module-level `config` binding imported at load time. -/

/-- The recognised initialisation options (`leftBracket`, `rightBracket`);
`none` for a key means the key is absent from the dictionary. -/
structure InitOptions where
  leftBracket : Option Char
  rightBracket : Option Char
deriving DecidableEq, Repr

/-- Embeds `AnnotationConfig.from_dict`: defaults when no data, otherwise
each bracket from the dictionary with the documented default. -/
def AnnotConfig.from_dict (data : Option InitOptions) : AnnotConfig :=
  match data with
  | none => defaultAnnotConfig
  | some d =>
    ⟨d.leftBracket.getD defaultAnnotConfig.left_bracket,
     d.rightBracket.getD defaultAnnotConfig.right_bracket⟩

/-- Embeds the `_ConfigManager.config` property: returns the stored
configuration, materialising the default when none is stored yet. -/
def configProperty (st : Option AnnotConfig) : AnnotConfig × Option AnnotConfig :=
  match st with
  | none => (defaultAnnotConfig, some defaultAnnotConfig)
  | some c => (c, some c)

/-- Embeds `_ConfigManager.initialize`: a no-op when a configuration is
already stored, otherwise stores `from_dict options`. -/
def managerInit (st : Option AnnotConfig) (options : Option InitOptions) :
    Option AnnotConfig :=
  match st with
  | some _ => st
  | none => some (AnnotConfig.from_dict options)

/-- The startup sequence of the server: module import evaluates
`config = _config_manager.config` (first component: the value bound to the
module-level `config` name used by the scanner), then the `initialize`
request calls `initialize_config(init_options)` (second component: the
manager state afterwards). -/
def startupSequence (options : Option InitOptions) : AnnotConfig × Option AnnotConfig :=
  ((configProperty none).1, managerInit (configProperty none).2 options)

/-- The configuration the Span Scanner uses after startup: the module-level
`config` binding. -/
def scannerConfigAfterStartup (options : Option InitOptions) : AnnotConfig :=
  (startupSequence options).1

/-- C7 (code behaviour, contradicting the claim): whatever initialisation
options the client supplies, the scanner's configuration is the default pair
— the import-time property access stores the defaults first, and
`initialize` then refuses to overwrite them; in particular supplying
brackets `[` and `]` does not yield the configuration `from_dict` would
build from them. -/
theorem C7_options_ignored :
    (∀ options, scannerConfigAfterStartup options = defaultAnnotConfig
      ∧ (startupSequence options).2 = some defaultAnnotConfig)
    ∧ scannerConfigAfterStartup (some ⟨some '[', some ']'⟩)
        ≠ AnnotConfig.from_dict (some ⟨some '[', some ']'⟩) := by
  constructor
  · intro o
    exact ⟨rfl, rfl⟩
  · decide

/-! ### C10: extracted text is delimiter-free (utils.py, `get_text_in_range`) -/

/-- An editor selection range. -/
structure RangeT where
  start_line : Nat
  start_char : Nat
  end_line : Nat
  end_char : Nat
deriving DecidableEq, Repr

/-- The per-line filter of `get_text_in_range`: drop every configured
delimiter character. -/
def filterBrackets (cfg : AnnotConfig) (l : List Char) : List Char :=
  l.filter (fun c => !decide (c = cfg.left_bracket) && !decide (c = cfg.right_bracket))

/-- Python `"\n".join` on the already-filtered line fragments. -/
def joinLines : List (List Char) → List Char
| [] => []
| [l] => l
| l :: l2 :: ls => l ++ '\n' :: joinLines (l2 :: ls)

/-- Embeds `get_text_in_range`: single-line slice, or the inclusive line
range with first/last lines sliced, each fragment filtered, joined by
newlines. -/
def get_text_in_range (cfg : AnnotConfig) (lines : List (List Char)) (r : RangeT) :
    List Char :=
  if r.start_line = r.end_line then
    filterBrackets cfg (((lines.getD r.start_line []).drop r.start_char).take
      (r.end_char - r.start_char))
  else
    joinLines (((List.range (r.end_line + 1 - r.start_line)).map (fun i =>
      if r.start_line + i = r.start_line then
        (lines.getD (r.start_line + i) []).drop r.start_char
      else if r.start_line + i = r.end_line then
        (lines.getD (r.start_line + i) []).take r.end_char
      else lines.getD (r.start_line + i) [])).map (filterBrackets cfg))

theorem mem_filterBrackets (cfg : AnnotConfig) (l : List Char) (c : Char)
    (h : c ∈ filterBrackets cfg l) :
    c ≠ cfg.left_bracket ∧ c ≠ cfg.right_bracket := by
  unfold filterBrackets at h
  have hf := List.of_mem_filter h
  simp only [Bool.and_eq_true, Bool.not_eq_true', decide_eq_false_iff_not] at hf
  exact hf

theorem mem_joinLines : ∀ (ls : List (List Char)) (c : Char),
    c ∈ joinLines ls → c = '\n' ∨ ∃ l ∈ ls, c ∈ l := by
  intro ls
  induction ls with
  | nil =>
    intro c hc
    simp [joinLines] at hc
  | cons l ls ih =>
    cases ls with
    | nil =>
      intro c hc
      right
      exact ⟨l, by simp, by simpa [joinLines] using hc⟩
    | cons l2 ls2 =>
      intro c hc
      simp only [joinLines] at hc
      rcases List.mem_append.mp hc with h | h
      · right
        exact ⟨l, by simp, h⟩
      · rcases List.mem_cons.mp h with h | h
        · left
          exact h
        · rcases ih c h with h | ⟨l3, hl3, hc3⟩
          · left
            exact h
          · right
            exact ⟨l3, List.mem_cons_of_mem l hl3, hc3⟩

/-- C10: for every selection range and document, the text extracted for the
note snapshot contains neither the configured left nor right delimiter
character (the embedding requires the delimiters not to be the newline
used to join multi-line selections). -/
theorem C10_no_delimiters (cfg : AnnotConfig) (lines : List (List Char)) (r : RangeT)
    (h1 : cfg.left_bracket ≠ '\n') (h2 : cfg.right_bracket ≠ '\n') :
    cfg.left_bracket ∉ get_text_in_range cfg lines r
    ∧ cfg.right_bracket ∉ get_text_in_range cfg lines r := by
  unfold get_text_in_range
  split_ifs with hsl
  · constructor <;> intro hc
    · exact (mem_filterBrackets cfg _ _ hc).1 rfl
    · exact (mem_filterBrackets cfg _ _ hc).2 rfl
  · constructor <;> intro hc
    · rcases mem_joinLines _ _ hc with hnl | ⟨l, hl, hcl⟩
      · exact h1 hnl
      · obtain ⟨l0, _, hfilt⟩ := List.mem_map.mp hl
        rw [← hfilt] at hcl
        exact (mem_filterBrackets cfg l0 _ hcl).1 rfl
    · rcases mem_joinLines _ _ hc with hnl | ⟨l, hl, hcl⟩
      · exact h2 hnl
      · obtain ⟨l0, _, hfilt⟩ := List.mem_map.mp hl
        rw [← hfilt] at hcl
        exact (mem_filterBrackets cfg l0 _ hcl).2 rfl

/-- Witness for C10 on a concrete two-line selection containing both
delimiters. -/
theorem C10_no_delimiters_witness :
    (defaultAnnotConfig.left_bracket ≠ '\n' ∧ defaultAnnotConfig.right_bracket ≠ '\n')
    ∧ defaultAnnotConfig.left_bracket ∉ get_text_in_range defaultAnnotConfig
        [['a', '｢', 'b'], ['c', '｣']] ⟨0, 0, 1, 2⟩
    ∧ defaultAnnotConfig.right_bracket ∉ get_text_in_range defaultAnnotConfig
        [['a', '｢', 'b'], ['c', '｣']] ⟨0, 0, 1, 2⟩ := by
  have h := C10_no_delimiters defaultAnnotConfig [['a', '｢', 'b'], ['c', '｣']] ⟨0, 0, 1, 2⟩
    (by decide) (by decide)
  exact ⟨⟨by decide, by decide⟩, h.1, h.2⟩

/-! ### C6: project resolution (workspace_manager.py)

Paths are modelled as component lists; `Path.relative_to` succeeds exactly
when the candidate root is a component-wise ancestor, and the relative depth
is the number of remaining components. -/

inductive WTree where
| node (rootPath : List String) (children : List WTree)

def WTree.rootPath : WTree → List String
| WTree.node p _ => p

mutual

/-- Embeds `Workspace.get_subtree_workspaces`: the node followed by the
subtrees of its children, in order. -/
def subtreeW : WTree → List WTree
| WTree.node p cs => WTree.node p cs :: subtreeL cs

def subtreeL : List WTree → List WTree
| [] => []
| t :: ts => subtreeW t ++ subtreeL ts

end

/-- Component-wise ancestor test: `Path.relative_to` succeeds. -/
def isAncestorOf : List String → List String → Bool
| [], _ => true
| _ :: _, [] => false
| a :: as, b :: bs => decide (a = b) && isAncestorOf as bs

/-- `len(path.relative_to(root).parts)` when `relative_to` succeeds. -/
def relDepth (root file : List String) : Option Nat :=
  if isAncestorOf root file then some (file.length - root.length) else none

/-- The minimum-relative-depth selection loop shared by
`_find_root_project_for_path` and the subtree scan of `get_workspace`:
strict improvement over an accumulator starting at `(None, 2147483647)`. -/
def pickAux (file : List String) : List WTree → Option WTree × Nat → Option WTree × Nat
| [], acc => acc
| w :: ws, acc =>
  match relDepth w.rootPath file with
  | none => pickAux file ws acc
  | some d => if d < acc.2 then pickAux file ws (some w, d) else pickAux file ws acc

/-- Embeds `WorkspaceManager._find_root_project_for_path` over the forest
roots. -/
def findRootProject (roots : List WTree) (file : List String) : Option WTree :=
  (pickAux file roots (none, 2147483647)).1

/-- Embeds `WorkspaceManager.get_workspace`: pick the root, then the
deepest workspace in its subtree containing the file. -/
def get_workspace (roots : List WTree) (file : List String) : Option WTree :=
  match findRootProject roots file with
  | none => none
  | some root => (pickAux file (subtreeW root) (none, 2147483647)).1

theorem isAncestorOf_length : ∀ (r f : List String), isAncestorOf r f = true →
    r.length ≤ f.length := by
  intro r
  induction r with
  | nil =>
    intro f _
    simp
  | cons a as ih =>
    intro f h
    cases f with
    | nil => simp [isAncestorOf] at h
    | cons b bs =>
      simp only [isAncestorOf, Bool.and_eq_true] at h
      have := ih bs h.2
      simp only [List.length_cons]
      omega

theorem pickAux_cons_none (file : List String) (w : WTree) (ws : List WTree)
    (acc : Option WTree × Nat) (h : relDepth w.rootPath file = none) :
    pickAux file (w :: ws) acc = pickAux file ws acc := by
  simp [pickAux, h]

theorem pickAux_cons_some (file : List String) (w : WTree) (ws : List WTree)
    (acc : Option WTree × Nat) (d0 : Nat) (h : relDepth w.rootPath file = some d0) :
    pickAux file (w :: ws) acc
      = if d0 < acc.2 then pickAux file ws (some w, d0) else pickAux file ws acc := by
  simp [pickAux, h]

theorem pickAux_le : ∀ (ws : List WTree) (file : List String) (acc : Option WTree × Nat),
    (pickAux file ws acc).2 ≤ acc.2
    ∧ ∀ w ∈ ws, ∀ d, relDepth w.rootPath file = some d → (pickAux file ws acc).2 ≤ d := by
  intro ws
  induction ws with
  | nil =>
    intro file acc
    exact ⟨le_refl _, fun w hw => absurd hw (List.not_mem_nil w)⟩
  | cons w ws ih =>
    intro file acc
    cases hrd : relDepth w.rootPath file with
    | none =>
      rw [pickAux_cons_none file w ws acc hrd]
      obtain ⟨ha, hb⟩ := ih file acc
      refine ⟨ha, ?_⟩
      intro x hx d hd
      rcases List.mem_cons.mp hx with h1 | h1
      · subst h1
        rw [hrd] at hd
        cases hd
      · exact hb x h1 d hd
    | some d0 =>
      rw [pickAux_cons_some file w ws acc d0 hrd]
      by_cases hlt : d0 < acc.2
      · rw [if_pos hlt]
        obtain ⟨ha, hb⟩ := ih file (some w, d0)
        refine ⟨le_trans ha (by omega), ?_⟩
        intro x hx d hd
        rcases List.mem_cons.mp hx with h1 | h1
        · subst h1
          rw [hrd] at hd
          injection hd with hd2
          subst hd2
          exact ha
        · exact hb x h1 d hd
      · rw [if_neg hlt]
        obtain ⟨ha, hb⟩ := ih file acc
        refine ⟨ha, ?_⟩
        intro x hx d hd
        rcases List.mem_cons.mp hx with h1 | h1
        · subst h1
          rw [hrd] at hd
          injection hd with hd2
          subst hd2
          omega
        · exact hb x h1 d hd

theorem pickAux_cases : ∀ (ws : List WTree) (file : List String) (acc : Option WTree × Nat),
    (pickAux file ws acc = acc)
    ∨ ∃ w ∈ ws, (pickAux file ws acc).1 = some w
        ∧ relDepth w.rootPath file = some (pickAux file ws acc).2
        ∧ (pickAux file ws acc).2 < acc.2 := by
  intro ws
  induction ws with
  | nil =>
    intro file acc
    exact Or.inl rfl
  | cons w ws ih =>
    intro file acc
    cases hrd : relDepth w.rootPath file with
    | none =>
      rw [pickAux_cons_none file w ws acc hrd]
      rcases ih file acc with h | ⟨x, hx, h1, h2, h3⟩
      · exact Or.inl h
      · exact Or.inr ⟨x, List.mem_cons_of_mem w hx, h1, h2, h3⟩
    | some d0 =>
      rw [pickAux_cons_some file w ws acc d0 hrd]
      by_cases hlt : d0 < acc.2
      · rw [if_pos hlt]
        rcases ih file (some w, d0) with h | ⟨x, hx, h1, h2, h3⟩
        · refine Or.inr ⟨w, List.mem_cons_self w ws, ?_, ?_, ?_⟩
          · rw [h]
          · rw [h]
            exact hrd
          · rw [h]
            exact hlt
        · refine Or.inr ⟨x, List.mem_cons_of_mem w hx, h1, h2, by omega⟩
      · rw [if_neg hlt]
        rcases ih file acc with h | ⟨x, hx, h1, h2, h3⟩
        · exact Or.inl h
        · exact Or.inr ⟨x, List.mem_cons_of_mem w hx, h1, h2, h3⟩

theorem pickAux_all_none : ∀ (ws : List WTree) (file : List String) (acc : Option WTree × Nat),
    (∀ w ∈ ws, relDepth w.rootPath file = none) → pickAux file ws acc = acc := by
  intro ws
  induction ws with
  | nil =>
    intro file acc _
    rfl
  | cons w ws ih =>
    intro file acc hall
    rw [pickAux_cons_none file w ws acc (hall w (List.mem_cons_self w ws))]
    exact ih file acc (fun x hx => hall x (List.mem_cons_of_mem w hx))

/-- C6: resolution first picks the forest root that is an ancestor of the
file with the smallest relative depth, then returns a workspace of that
root's subtree that contains the file and has the longest (deepest) root
path; a file under no registered root resolves to `none`.  On the concrete
forest with projects at `/a` and `/a/b`: a file under `/a/b` resolves to the
`/a/b` project, a file under `/a` only to the `/a` project, and a file
outside to `none`. -/
theorem C6_resolve (forest : List WTree) (file : List String)
    (hlen : file.length < 2147483647) :
    ((∀ t ∈ forest, isAncestorOf t.rootPath file = false) →
        get_workspace forest file = none)
    ∧ (∀ root, findRootProject forest file = some root →
        root ∈ forest ∧ isAncestorOf root.rootPath file = true
        ∧ (∀ t ∈ forest, isAncestorOf t.rootPath file = true →
            file.length - root.rootPath.length ≤ file.length - t.rootPath.length)
        ∧ ∃ w, get_workspace forest file = some w ∧ w ∈ subtreeW root
            ∧ isAncestorOf w.rootPath file = true
            ∧ ∀ u ∈ subtreeW root, isAncestorOf u.rootPath file = true →
                u.rootPath.length ≤ w.rootPath.length)
    ∧ get_workspace [WTree.node ["a"] [WTree.node ["a", "b"] []]] ["a", "b", "c", "f"]
        = some (WTree.node ["a", "b"] [])
    ∧ get_workspace [WTree.node ["a"] [WTree.node ["a", "b"] []]] ["a", "x", "f"]
        = some (WTree.node ["a"] [WTree.node ["a", "b"] []])
    ∧ get_workspace [WTree.node ["a"] [WTree.node ["a", "b"] []]] ["z", "f"] = none := by
  refine ⟨?_, ?_, by rfl, by rfl, by rfl⟩
  · intro hall
    have hnone : pickAux file forest (none, 2147483647) = (none, 2147483647) := by
      apply pickAux_all_none
      intro w hw
      unfold relDepth
      rw [hall w hw]
      simp
    unfold get_workspace findRootProject
    rw [hnone]
  · intro root hroot
    have hroot0 := hroot
    rcases pickAux_cases forest file (none, 2147483647) with h | ⟨x, hx, h1, h2, h3⟩
    · unfold findRootProject at hroot
      rw [h] at hroot
      exact absurd hroot (by simp)
    · unfold findRootProject at hroot
      rw [h1] at hroot
      have hxr : x = root := Option.some.inj hroot
      subst hxr
      have hanc : isAncestorOf x.rootPath file = true := by
        by_contra hc2
        rw [Bool.not_eq_true] at hc2
        unfold relDepth at h2
        rw [hc2] at h2
        simp at h2
      have hd : (pickAux file forest (none, 2147483647)).2
          = file.length - x.rootPath.length := by
        unfold relDepth at h2
        rw [hanc] at h2
        simp only [if_true] at h2
        exact (Option.some.inj h2).symm
      refine ⟨hx, hanc, ?_, ?_⟩
      · intro t ht hanct
        have hb := (pickAux_le forest file (none, 2147483647)).2 t ht
          (file.length - t.rootPath.length) (by simp [relDepth, hanct])
        rw [hd] at hb
        exact hb
      · have hrootmem : x ∈ subtreeW x := by
          cases x with
          | node p cs => simp [subtreeW]
        have hrd : relDepth x.rootPath file = some (file.length - x.rootPath.length) := by
          simp [relDepth, hanc]
        rcases pickAux_cases (subtreeW x) file (none, 2147483647) with h4 | ⟨y, hy, hy1, hy2, hy3⟩
        · exfalso
          have hb := (pickAux_le (subtreeW x) file (none, 2147483647)).2 x hrootmem _ hrd
          rw [h4] at hb
          simp only at hb
          have := Nat.sub_le file.length x.rootPath.length
          omega
        · have hancy : isAncestorOf y.rootPath file = true := by
            by_contra hc2
            rw [Bool.not_eq_true] at hc2
            unfold relDepth at hy2
            rw [hc2] at hy2
            simp at hy2
          have hdy : (pickAux file (subtreeW x) (none, 2147483647)).2
              = file.length - y.rootPath.length := by
            unfold relDepth at hy2
            rw [hancy] at hy2
            simp only [if_true] at hy2
            exact (Option.some.inj hy2).symm
          refine ⟨y, ?_, hy, hancy, ?_⟩
          · unfold get_workspace
            rw [hroot0]
            exact hy1
          · intro u hu hancu
            have hb := (pickAux_le (subtreeW x) file (none, 2147483647)).2 u hu
              (file.length - u.rootPath.length) (by simp [relDepth, hancu])
            rw [hdy] at hb
            have h5 := isAncestorOf_length _ _ hancy
            have h6 := isAncestorOf_length _ _ hancu
            omega

/-- Witness for C6 at the concrete forest and a file under `/a/b`. -/
theorem C6_resolve_witness :
    (["a", "b", "c", "f"] : List String).length < 2147483647
    ∧ get_workspace [WTree.node ["a"] [WTree.node ["a", "b"] []]] ["a", "b", "c", "f"]
        = some (WTree.node ["a", "b"] []) := by
  have h := C6_resolve [WTree.node ["a"] [WTree.node ["a", "b"] []]] ["a", "b", "c", "f"]
    (by decide)
  exact ⟨by decide, h.2.2.1⟩
